import Mathlib

/-!
Verification of the PIXID XML enrichment engine (`src/xml_enricher.py`).

The development shallowly embeds the XML document model and the enrichment
operations of `XMLEnricher`.  An XML element is a rose tree carrying a local
name, an optional text payload and a list of children (namespaces and
attributes play no role in the verified claims and are not modelled).  Nodes
are addressed by their child-index paths, and lxml's document order on the
nodes returned by an XPath query coincides with the lexicographic order on
addresses, which is how `[0]`-indexing of query results is interpreted
throughout.
-/

set_option maxHeartbeats 1000000

abbrev Addr := List Nat

/-- Strict lexicographic order on addresses; this is exactly the document
(pre-)order that lxml uses for XPath node-set results. -/
def lexLt : Addr → Addr → Prop
  | [], b => b ≠ []
  | _ :: _, [] => False
  | a :: as, b :: bs => a < b ∨ (a = b ∧ lexLt as bs)

/-- `pfx a b` means `a` is a (not necessarily strict) prefix of `b`. -/
def pfx : Addr → Addr → Prop
  | [], _ => True
  | _ :: _, [] => False
  | a :: as, b :: bs => a = b ∧ pfx as bs

instance : ∀ a b, Decidable (lexLt a b)
  | [], b => inferInstanceAs (Decidable (b ≠ []))
  | _ :: _, [] => isFalse (fun h => h)
  | _ :: as, _ :: bs =>
    have : Decidable (lexLt as bs) := instDecidableLexLt as bs
    inferInstanceAs (Decidable (_ ∨ _))

instance : ∀ a b, Decidable (pfx a b)
  | [], _ => isTrue trivial
  | _ :: _, [] => isFalse (fun h => h)
  | _ :: as, _ :: bs =>
    have : Decidable (pfx as bs) := instDecidablePfx as bs
    inferInstanceAs (Decidable (_ ∧ _))

/-- XML element: local name, optional text content, children in document
order.  Mirrors the portion of the lxml element model used by the script. -/
inductive Elem : Type where
  | node (name : String) (text : Option String) (children : List Elem)

def nameOf : Elem → String
  | .node n _ _ => n

def textOf : Elem → Option String
  | .node _ t _ => t

def kidsOf : Elem → List Elem
  | .node _ _ c => c

/-- Subtree at an address (`none` when the address is invalid). -/
def Elem.get? : Elem → Addr → Option Elem
  | e, [] => some e
  | .node _ _ cs, i :: a =>
    match cs[i]? with
    | some c => c.get? a
    | none => none

/-- Replace the subtree at an address by the image under `f`; identity when
the address is invalid. -/
def Elem.modifyAt : Elem → Addr → (Elem → Elem) → Elem
  | e, [], f => f e
  | .node n tx cs, i :: a, f =>
    match cs[i]? with
    | some c => .node n tx (cs.take i ++ [c.modifyAt a f] ++ cs.drop (i+1))
    | none => .node n tx cs

/-- `element.text = value` at an address (lxml in-place text assignment). -/
def setTextAt (t : Elem) (a : Addr) (v : String) : Elem :=
  t.modifyAt a (fun e => .node (nameOf e) (some v) (kidsOf e))

/-- `etree.SubElement(parent, tag)` : append a new last child at an address. -/
def appendAt (t : Elem) (a : Addr) (e : Elem) : Elem :=
  t.modifyAt a (fun x => .node (nameOf x) (textOf x) (kidsOf x ++ [e]))

def nameAt (t : Elem) (a : Addr) : Option String := (t.get? a).map nameOf

def textAtNode (t : Elem) (a : Addr) : Option String := (t.get? a).bind textOf

def kidNames (t : Elem) (a : Addr) : List String :=
  ((t.get? a).map (fun e => (kidsOf e).map nameOf)).getD []

def childCountAt (t : Elem) (a : Addr) : Nat :=
  ((t.get? a).map (fun e => (kidsOf e).length)).getD 0

mutual
def esize : Elem → Nat
  | .node _ _ cs => 1 + fsize cs
def fsize : List Elem → Nat
  | [] => 0
  | c :: cs => esize c + fsize cs
end

mutual
/-- All addresses of the tree in document (pre-)order, the root first. -/
def Elem.addrs : Elem → List Addr
  | .node _ _ cs => [] :: forestAddrs 0 cs
def forestAddrs : Nat → List Elem → List Addr
  | _, [] => []
  | i, c :: cs => (Elem.addrs c).map (i :: ·) ++ forestAddrs (i+1) cs
end

/-- `chainMatch t ps a` : the node at `a` is selected by the relative XPath
`.//p₁/p₂/…/pₙ` (namespace-agnostic `local-name()` steps), i.e. the last
`ps.length` names along the path to `a` are exactly `ps` and the `p₁` node is
a proper descendant of the context `t`. -/
def chainMatch (t : Elem) (ps : List String) (a : Addr) : Prop :=
  (t.get? a).isSome = true ∧ ps ≠ [] ∧ ps.length ≤ a.length ∧
    ∀ r, (hr : r < ps.length) →
      nameAt t (a.take (a.length - ps.length + r + 1)) = some (ps.get ⟨r, hr⟩)

instance (t : Elem) (ps : List String) (a : Addr) : Decidable (chainMatch t ps a) := by
  unfold chainMatch
  exact inferInstance

/-- Result list of the XPath `.//p₁/…/pₙ` relative to `t`, in document order
(lxml returns node sets sorted in document order). -/
def chainHits (t : Elem) (ps : List String) : List Addr :=
  t.addrs.filter (fun a => decide (chainMatch t ps a))

/-- Result list of `.//name` relative to the node at `base` : the proper
descendants of `base` carrying `name`, in document order, as absolute
addresses. -/
def descHits (t : Elem) (base : Addr) (nm : String) : List Addr :=
  t.addrs.filter (fun a => decide (pfx base a ∧ a ≠ base ∧ nameAt t a = some nm))

/-- The element-creation loop of `_upsert_text` : walk the tag parts,
descending into the first `.//part` hit, creating a child when none exists. -/
def createPath : Elem → Addr → List String → Elem × Addr
  | t, base, [] => (t, base)
  | t, base, p :: rest =>
    match (descHits t base p).head? with
    | some a => createPath t a rest
    | none => createPath (appendAt t base (.node p none [])) (base ++ [childCountAt t base]) rest

/-- `_upsert_text(context, xpath, value, tag)` : if the XPath chain matches,
assign the text of the first hit; otherwise create/descend the hierarchy and
assign the text of the final node.  Empty part lists leave the tree unchanged
(the Python code returns `False` in that case). -/
def upsertText (t : Elem) (ps : List String) (v : String) : Elem :=
  match (chainHits t ps).head? with
  | some a => setTextAt t a v
  | none =>
    match ps with
    | [] => t
    | _ :: _ => setTextAt (createPath t [] ps).1 (createPath t [] ps).2 v

/-- Pure-descent phase of `createPath` on the unmodified tree: returns the
deepest reached address and the remaining (to-be-created) parts. -/
def descendPhase (t : Elem) : Addr → List String → Addr × List String
  | base, [] => (base, [])
  | base, p :: rest =>
    match (descHits t base p).head? with
    | some a => descendPhase t a rest
    | none => (base, p :: rest)

/-- Creation phase: append a fresh single-child chain below `D`. -/
def appendChain : Elem → Addr → List String → Elem × Addr
  | t, D, [] => (t, D)
  | t, D, r :: rs => appendChain (appendAt t D (.node r none [])) (D ++ [childCountAt t D]) rs

/-- `descendsTo t base qs D` : starting from `base`, successively descending
into the first `.//q` hit for each `q ∈ qs` ends at `D`. -/
def descendsTo (t : Elem) : Addr → List String → Addr → Prop
  | base, [], D => D = base
  | base, q :: qs, D => ∃ a, (descHits t base q).head? = some a ∧ descendsTo t a qs D

/-!
## Model of the Python enrichment logic

Direct translations of the functions of `XMLEnricher` (src/xml_enricher.py).
Python `str.strip` / regexes are modelled over `List Char` with ASCII
whitespace and digits, which covers every identifier and classification the
engine handles.
-/

/-- ASCII whitespace, as stripped by Python `str.strip()`. -/
def isWsChar (c : Char) : Bool :=
  c == ' ' || c == '\t' || c == '\n' || c == '\r' || c == '\x0b' || c == '\x0c'

/-- Python `str.strip()`. -/
def strTrim (s : String) : String :=
  String.mk (((s.toList.dropWhile isWsChar).reverse.dropWhile isWsChar).reverse)

def isAsciiDigit (c : Char) : Bool :=
  decide (48 ≤ c.toNat) && decide (c.toNat ≤ 57)

/-- Leftmost occurrence of `p₁ p₂` followed by six digits (the regex
`(RT\d{6})` &c. under `re.search`), returning the captured group. -/
def findPat (p₁ p₂ : Char) : List Char → Option String
  | [] => none
  | [_] => none
  | a :: b :: rest =>
    if a == p₁ && b == p₂ && decide (6 ≤ rest.length) && (rest.take 6).all isAsciiDigit
    then some (String.mk (a :: b :: rest.take 6))
    else findPat p₁ p₂ (b :: rest)

/-- `_extract_order_id_from_text` : try the `ORDER_PATTERNS` in order
(RT, CR, CD, each followed by exactly six digits). -/
def extractOrderIdFromText (s : String) : Option String :=
  match findPat 'R' 'T' s.toList with
  | some r => some r
  | none =>
    match findPat 'C' 'R' s.toList with
    | some r => some r
    | none => findPat 'C' 'D' s.toList

/-- `s` is exactly an accepted order number: RT/CR/CD plus six digits. -/
def acceptedOrderId (s : String) : Bool :=
  match s.toList with
  | a :: b :: rest =>
    ((a == 'R' && b == 'T') || (a == 'C' && b == 'R') || (a == 'C' && b == 'D'))
      && decide (rest.length = 6) && rest.all isAsciiDigit
  | _ => false

/-- `CLASSIFICATION_REGEX = ^[A-E]\d{1,2}$` as a full match. -/
def classifPattern (s : String) : Bool :=
  match s.toList with
  | [c, d] => decide ('A' ≤ c) && decide (c ≤ 'E') && isAsciiDigit d
  | [c, d, e] => decide ('A' ≤ c) && decide (c ≤ 'E') && isAsciiDigit d && isAsciiDigit e
  | _ => false

/-- `statut.split('-')[0].strip() if '-' in statut else statut.strip()`. -/
def statutCode (s : String) : String :=
  if s.toList.contains '-' then strTrim (String.mk (s.toList.takeWhile (fun c => c != '-')))
  else strTrim s

/-- Order record from `commandes_stm.json`; only the fields the enricher
reads are modelled. -/
structure Commande where
  classification_interimaire : Option String
  statut : Option String

def coeffPath : List String := ["PositionCharacteristics", "PositionCoefficient"]

def statusPath : List String := ["PositionCharacteristics", "PositionStatus", "Code"]

def levelPath : List String := ["PositionLevel"]

/-- `_get_classification_from_level` : classification, note, fallback flag. -/
def getClassificationFromLevel (t : Elem) : Option String × String × Bool :=
  match (chainHits t levelPath).head? with
  | some a =>
    match textAtNode t a with
    | some s =>
      if s != "" then
        let lv := strTrim s
        if classifPattern lv then (some lv, "copié depuis PositionLevel", true)
        else (none, "", false)
      else (none, "", false)
    | none => (none, "", false)
  | none => (none, "", false)

/-- `_get_classification` : the JSON `classification_interimaire` wins when
truthy after stripping; otherwise fall back to `PositionLevel`. -/
def getClassification (t : Elem) (cmd : Commande) : Option String × String × Bool :=
  match cmd.classification_interimaire with
  | some c =>
    if c != "" && strTrim c != "" then (some (strTrim c), "depuis JSON", false)
    else getClassificationFromLevel t
  | none => getClassificationFromLevel t

/-- Per-contract modification record returned by `_enrich_contract`
(`'N/A'` is modelled as `none`). -/
structure EnrichResult where
  classification : Option String
  statut_code : Option String
  note : String
  fallback_used : Bool

/-- `_enrich_contract` : upsert the coefficient, then the status code. -/
def enrichContract (t : Elem) (cmd : Commande) : Elem × EnrichResult :=
  let gc := getClassification t cmd
  let stage1 : Elem × EnrichResult :=
    match gc with
    | (some c, note, fb) =>
      if c != "" then
        (upsertText t coeffPath c,
         { classification := some c, statut_code := none, note := note, fallback_used := fb })
      else (t, { classification := none, statut_code := none, note := "", fallback_used := false })
    | (none, _, _) =>
      (t, { classification := none, statut_code := none, note := "", fallback_used := false })
  match cmd.statut with
  | some s =>
    if s != "" then
      (upsertText stage1.1 statusPath (statutCode s),
       { stage1.2 with statut_code := some (statutCode s) })
    else stage1
  | none => stage1

/-- `_apply_classification_fallback` : for a contract with no matching
record, copy the level text into the coefficient only when the current
coefficient is absent or blank. -/
def applyClassificationFallback (t : Elem) : Elem × Option (String × String) :=
  match getClassificationFromLevel t with
  | (some c, note, fb) =>
    if c != "" && fb then
      match (chainHits t coeffPath).head? with
      | some a =>
        if strTrim ((textAtNode t a).getD "") == "" then
          (upsertText t coeffPath c, some (c, note))
        else (t, none)
      | none => (upsertText t coeffPath c, some (c, note))
    else (t, none)
  | (none, _, _) => (t, none)

/-- A `ReferenceInformation` element owning an `OrderId/IdValue` child chain —
the reference-anchor test of the locator's XPath. -/
def isAnchorElem (e : Elem) : Bool :=
  nameOf e == "ReferenceInformation" &&
    (kidsOf e).any (fun oid =>
      nameOf oid == "OrderId" && (kidsOf oid).any (fun idv => nameOf idv == "IdValue"))

/-- Parents of reference anchors: the candidate contract contexts produced by
`//*[local-name()='ReferenceInformation'][…OrderId/IdValue…]/..`, in document
order, without duplicates (XPath node-set semantics). -/
def contextAddrs (doc : Elem) : List Addr :=
  doc.addrs.filter (fun a =>
    ((doc.get? a).map (fun e => (kidsOf e).any isAnchorElem)).getD false)

/-- Child-level `OrderId/IdValue`-style lookup (`*[local-name()='p']/*[local-name()='q']`)
relative to an element, in document order. -/
def childPairHits (e : Elem) (p q : String) : List Addr :=
  e.addrs.filter (fun a =>
    match a with
    | [i, j] => decide (nameAt e [i] = some p ∧ nameAt e [i, j] = some q)
    | _ => false)

structure ContractInfo where
  order_id : String
  assignment_id : String
  ctx : Addr

/-- `_extract_contract_info` : read the first `.//ReferenceInformation` of the
context, require a truthy `OrderId/IdValue` text, and extract an accepted
order number from it; `none` discards the contract. -/
def extractContract (doc : Elem) (ctx : Addr) : Option ContractInfo :=
  match doc.get? ctx with
  | none => none
  | some sub =>
    match (chainHits sub ["ReferenceInformation"]).head? with
    | none => none
    | some r =>
      match sub.get? r with
      | none => none
      | some ref =>
        match (childPairHits ref "OrderId" "IdValue").head? with
        | none => none
        | some oidA =>
          match textAtNode ref oidA with
          | none => none
          | some txt =>
            if txt == "" then none
            else
              match extractOrderIdFromText (strTrim txt) with
              | none => none
              | some oid =>
                let assign :=
                  match (childPairHits ref "AssignmentId" "IdValue").head? with
                  | some aA =>
                    match textAtNode ref aA with
                    | some s₁ => if s₁ == "" then "N/A" else strTrim s₁
                    | none => "N/A"
                  | none => "N/A"
                some { order_id := oid, assignment_id := assign, ctx := ctx }

/-- `find_all_order_ids_in_xml` : all contract contexts that survive
extraction, in document order. -/
def locate (doc : Elem) : List ContractInfo :=
  (contextAddrs doc).filterMap (extractContract doc)

/-- The in-memory `commandes` dictionary: first binding of a key wins for
lookup purposes. -/
def lookupTable (table : List (String × Commande)) (k : String) : Option Commande :=
  (table.find? (fun p => p.1 == k)).map (fun p => p.2)

/-- Key resolution applied to a document identifier text: strip, extract an
order number by pattern search, then exact dictionary lookup. -/
def resolveRecord (table : List (String × Commande)) (idText : String) : Option Commande :=
  match extractOrderIdFromText (strTrim idText) with
  | some oid => lookupTable table oid
  | none => none

/-- One row of `stats['details']` (`'N/A'` modelled as `none`). -/
structure Detail where
  order_id : String
  assignment_id : String
  coefficient : Option String
  status_code : Option String
  matched : Bool
  note : String

structure RunStats where
  total : Nat
  enrichis : Nat
  non_trouves : Nat
  fallback_count : Nat
  details : List Detail

structure StepOut where
  doc : Elem
  detail : Detail
  matched : Bool
  fb : Bool

/-- Body of the per-contract loop of `enrich_xml`. -/
def stepContract (table : List (String × Commande)) (doc : Elem) (info : ContractInfo) : StepOut :=
  match lookupTable table info.order_id with
  | some cmd =>
    match doc.get? info.ctx with
    | some sub =>
      let er := enrichContract sub cmd
      { doc := doc.modifyAt info.ctx (fun _ => er.1),
        detail := { order_id := info.order_id, assignment_id := info.assignment_id,
                    coefficient := er.2.classification, status_code := er.2.statut_code,
                    matched := true, note := er.2.note },
        matched := true, fb := er.2.fallback_used }
    | none =>
      { doc := doc,
        detail := { order_id := info.order_id, assignment_id := info.assignment_id,
                    coefficient := none, status_code := none, matched := true, note := "" },
        matched := true, fb := false }
  | none =>
    match doc.get? info.ctx with
    | some sub =>
      let fr := applyClassificationFallback sub
      match fr.2 with
      | some cn =>
        { doc := doc.modifyAt info.ctx (fun _ => fr.1),
          detail := { order_id := info.order_id, assignment_id := info.assignment_id,
                      coefficient := some cn.1, status_code := none,
                      matched := false, note := cn.2 },
          matched := false, fb := true }
      | none =>
        { doc := doc,
          detail := { order_id := info.order_id, assignment_id := info.assignment_id,
                      coefficient := none, status_code := none,
                      matched := false, note := "Aucune donnée disponible" },
          matched := false, fb := false }
    | none =>
      { doc := doc,
        detail := { order_id := info.order_id, assignment_id := info.assignment_id,
                    coefficient := none, status_code := none,
                    matched := false, note := "Aucune donnée disponible" },
        matched := false, fb := false }

/-- `encoding = tree.docinfo.encoding or 'iso-8859-1'` (line 212). -/
def outputEncoding (declared : Option String) : String :=
  match declared with
  | some e => if e == "" then "iso-8859-1" else e
  | none => "iso-8859-1"

structure RunResult where
  success : Bool
  message : String
  written : Bool
  encodingUsed : String
  stats : RunStats
  output : Elem

/-- One iteration of the contract loop of `enrich_xml` : run the per-contract
body and accumulate the statistics counters. -/
def foldStep (table : List (String × Commande)) (acc : Elem × RunStats)
    (info : ContractInfo) : Elem × RunStats :=
  let r := stepContract table acc.1 info
  (r.doc,
   { acc.2 with
     enrichis := acc.2.enrichis + (if r.matched then 1 else 0),
     non_trouves := acc.2.non_trouves + (if r.matched then 0 else 1),
     fallback_count := acc.2.fallback_count + (if r.fb then 1 else 0),
     details := acc.2.details ++ [r.detail] })

/-- `enrich_xml` : locate all contracts, enrich each in turn, and write the
output only when at least one record matched or the fallback fired. -/
def enrichXml (doc : Elem) (declaredEncoding : Option String)
    (table : List (String × Commande)) : RunResult :=
  let encoding := outputEncoding declaredEncoding
  let contracts := locate doc
  if contracts.isEmpty then
    { success := false, message := "Aucun contrat détecté dans le XML", written := false,
      encodingUsed := encoding,
      stats := { total := 0, enrichis := 0, non_trouves := 0, fallback_count := 0, details := [] },
      output := doc }
  else
    let folded := contracts.foldl (foldStep table)
      (doc, { total := contracts.length, enrichis := 0, non_trouves := 0,
              fallback_count := 0, details := [] })
    if folded.2.enrichis > 0 || folded.2.fallback_count > 0 then
      { success := true, message := "XML enrichi avec succès", written := true,
        encodingUsed := encoding, stats := folded.2, output := folded.1 }
    else
      { success := false, message := "Aucune modification effectuée", written := false,
        encodingUsed := encoding, stats := folded.2, output := folded.1 }

/-- Truthiness test of the JSON classification
(`if classification and classification.strip()`). -/
def classifTruthy (cmd : Commande) : Bool :=
  match cmd.classification_interimaire with
  | some c => c != "" && strTrim c != ""
  | none => false

/-!
## Concrete fixture documents used by counterexamples and witnesses
-/

/-- A contract context carrying two `PositionStatus/Code` chains. -/
def exTwoStatus : Elem :=
  .node "Position" none
    [.node "PositionCharacteristics" none
      [.node "PositionStatus" none [.node "Code" (some "X1") []],
       .node "PositionStatus" none [.node "Code" (some "X2") []]]]

/-- A context with an existing `StatusDescription` node next to the status code. -/
def exDescr : Elem :=
  .node "Position" none
    [.node "PositionCharacteristics" none
      [.node "PositionCoefficient" (some "A1") [],
       .node "PositionStatus" none
         [.node "Code" (some "XX") [], .node "StatusDescription" (some "OLD") []]]]

/-- A document with no reference anchors at all. -/
def exEmpty : Elem := .node "Root" none []

/-- A document whose single contract has a non-empty coefficient and a
well-formed `PositionLevel`. -/
def exFallback : Elem :=
  .node "Root" none
    [.node "Contract" none
      [.node "ReferenceInformation" none
        [.node "OrderId" none [.node "IdValue" (some "RT001400") []]],
       .node "PositionCharacteristics" none [.node "PositionCoefficient" (some "Z9") []],
       .node "PositionLevel" (some "B3") []]]

/-- A document with a nested contract context inside an outer context whose
own reference anchor carries a non-matching order text. -/
def exNested : Elem :=
  .node "P" none
    [.node "X" none
      [.node "Y" none
        [.node "ReferenceInformation" none
          [.node "OrderId" none [.node "IdValue" (some "RT111111") []]]]],
     .node "ReferenceInformation" none
       [.node "OrderId" none [.node "IdValue" (some "GARBAGE") []]]]

/-!
## Order and prefix infrastructure
-/

theorem lexLt_irrefl (a : Addr) : ¬ lexLt a a := by
  induction a with
  | nil => intro h; exact h rfl
  | cons x xs ih =>
    intro h
    simp only [lexLt] at h
    rcases h with h | ⟨-, h⟩
    · omega
    · exact ih h

theorem lexLt_trans {a b c : Addr} (h₁ : lexLt a b) (h₂ : lexLt b c) : lexLt a c := by
  induction a generalizing b c with
  | nil =>
    cases c with
    | nil =>
      cases b with
      | nil => exact absurd h₁ (lexLt_irrefl [])
      | cons y ys => exact absurd h₂ (fun h => h)
    | cons z zs => simp [lexLt]
  | cons x xs ih =>
    cases b with
    | nil => exact absurd h₁ (fun h => h)
    | cons y ys =>
      cases c with
      | nil => exact absurd h₂ (fun h => h)
      | cons z zs =>
        simp only [lexLt] at h₁ h₂ ⊢
        rcases h₁ with h₁ | ⟨e₁, h₁⟩ <;> rcases h₂ with h₂ | ⟨e₂, h₂⟩
        · left; omega
        · left; omega
        · left; omega
        · right; exact ⟨e₁.trans e₂, ih h₁ h₂⟩

theorem lexLt_asymm {a b : Addr} (h₁ : lexLt a b) : ¬ lexLt b a :=
  fun h₂ => lexLt_irrefl a (lexLt_trans h₁ h₂)

theorem lexLt_trichot (a b : Addr) : lexLt a b ∨ a = b ∨ lexLt b a := by
  induction a generalizing b with
  | nil =>
    cases b with
    | nil => exact Or.inr (Or.inl rfl)
    | cons y ys => exact Or.inl (by simp [lexLt])
  | cons x xs ih =>
    cases b with
    | nil => exact Or.inr (Or.inr (by simp [lexLt]))
    | cons y ys =>
      rcases Nat.lt_trichotomy x y with h | h | h
      · exact Or.inl (Or.inl h)
      · rcases ih ys with h' | h' | h'
        · exact Or.inl (Or.inr ⟨h, h'⟩)
        · subst h; subst h'; exact Or.inr (Or.inl rfl)
        · exact Or.inr (Or.inr (Or.inr ⟨h.symm, h'⟩))
      · exact Or.inr (Or.inr (Or.inl h))

theorem pfx_refl (a : Addr) : pfx a a := by
  induction a with
  | nil => trivial
  | cons x xs ih => exact ⟨rfl, ih⟩

theorem pfx_iff_append {a b : Addr} : pfx a b ↔ ∃ c, b = a ++ c := by
  induction a generalizing b with
  | nil => simp [pfx]
  | cons x xs ih =>
    cases b with
    | nil =>
      constructor
      · intro h; exact absurd h (fun h => h)
      · rintro ⟨c, hc⟩; cases hc
    | cons y ys =>
      constructor
      · rintro ⟨he, hp⟩
        rcases ih.mp hp with ⟨c, hc⟩
        exact ⟨c, by simp [he, hc]⟩
      · rintro ⟨c, hc⟩
        injection hc with h₁ h₂
        exact ⟨h₁.symm, ih.mpr ⟨c, h₂⟩⟩

theorem pfx_append (a c : Addr) : pfx a (a ++ c) :=
  pfx_iff_append.mpr ⟨c, rfl⟩

theorem pfx_length {a b : Addr} (h : pfx a b) : a.length ≤ b.length := by
  rcases pfx_iff_append.mp h with ⟨c, rfl⟩
  simp

theorem pfx_antisymm {a b : Addr} (h₁ : pfx a b) (h₂ : pfx b a) : a = b := by
  rcases pfx_iff_append.mp h₁ with ⟨c, rfl⟩
  have := pfx_length h₂
  simp at this
  simp [this]

theorem pfx_trans {a b c : Addr} (h₁ : pfx a b) (h₂ : pfx b c) : pfx a c := by
  rcases pfx_iff_append.mp h₁ with ⟨u, rfl⟩
  rcases pfx_iff_append.mp h₂ with ⟨v, rfl⟩
  exact pfx_iff_append.mpr ⟨u ++ v, by simp⟩

theorem pfx_total_of_common {a b c : Addr} (h₁ : pfx a c) (h₂ : pfx b c) :
    pfx a b ∨ pfx b a := by
  induction a generalizing b c with
  | nil => exact Or.inl trivial
  | cons x xs ih =>
    cases b with
    | nil => exact Or.inr trivial
    | cons y ys =>
      cases c with
      | nil => exact absurd h₁ (fun h => h)
      | cons z zs =>
        obtain ⟨hx, h₁'⟩ := h₁
        obtain ⟨hy, h₂'⟩ := h₂
        rcases ih h₁' h₂' with h | h
        · exact Or.inl ⟨hx.trans hy.symm, h⟩
        · exact Or.inr ⟨hy.trans hx.symm, h⟩

theorem lexLt_of_pfx {a b : Addr} (h : pfx a b) (hne : a ≠ b) : lexLt a b := by
  induction a generalizing b with
  | nil =>
    cases b with
    | nil => exact absurd rfl hne
    | cons y ys => simp [lexLt]
  | cons x xs ih =>
    cases b with
    | nil => exact absurd h (fun h => h)
    | cons y ys =>
      obtain ⟨he, hp⟩ := h
      subst he
      refine Or.inr ⟨rfl, ih hp ?_⟩
      intro hcon
      exact hne (by rw [hcon])

theorem pfx_take (b : Addr) (n : Nat) : pfx (b.take n) b := by
  induction b generalizing n with
  | nil => simp [pfx]
  | cons x xs ih =>
    cases n with
    | zero => simp [pfx]
    | succ m => exact ⟨rfl, ih m⟩

theorem take_eq_take_of_pfx {a b : Addr} (h : pfx a b) {n : Nat} (hn : n ≤ a.length) :
    a.take n = b.take n := by
  rcases pfx_iff_append.mp h with ⟨c, rfl⟩
  rw [List.take_append_of_le_length hn]

theorem pfx_take_iff {a b : Addr} : pfx a b ↔ b.take a.length = a := by
  constructor
  · intro h
    rcases pfx_iff_append.mp h with ⟨c, rfl⟩
    simp
  · intro h
    have := pfx_take b a.length
    rwa [h] at this

/-!
## Sorted-list (document order) infrastructure
-/

theorem head_eq_of_min {l : List Addr} (hs : l.Pairwise lexLt) {x : Addr}
    (hx : x ∈ l) (hmin : ∀ y ∈ l, x = y ∨ lexLt x y) : l.head? = some x := by
  cases l with
  | nil => cases hx
  | cons a l' =>
    have ha : x = a ∨ lexLt x a := hmin a (List.mem_cons_self a l')
    rcases List.mem_cons.mp hx with rfl | hx'
    · rfl
    · have h₁ : lexLt a x := (List.pairwise_cons.mp hs).1 x hx'
      rcases ha with rfl | h₂
      · exact absurd h₁ (lexLt_irrefl x)
      · exact absurd h₁ (lexLt_asymm h₂)

theorem sorted_ext {l₁ l₂ : List Addr} (h₁ : l₁.Pairwise lexLt) (h₂ : l₂.Pairwise lexLt)
    (hm : ∀ x, x ∈ l₁ ↔ x ∈ l₂) : l₁ = l₂ := by
  induction l₁ generalizing l₂ with
  | nil =>
    cases l₂ with
    | nil => rfl
    | cons y ys => exact absurd ((hm y).mpr (List.mem_cons_self y ys)) (by simp)
  | cons x xs ih =>
    cases l₂ with
    | nil => exact absurd ((hm x).mp (List.mem_cons_self x xs)) (by simp)
    | cons y ys =>
      obtain ⟨hx₂, hxs⟩ := List.pairwise_cons.mp h₁
      obtain ⟨hy₂, hys⟩ := List.pairwise_cons.mp h₂
      have hxy : x = y := by
        rcases List.mem_cons.mp ((hm x).mp (List.mem_cons_self x xs)) with h | h
        · exact h
        · rcases List.mem_cons.mp ((hm y).mpr (List.mem_cons_self y ys)) with h' | h'
          · exact h'.symm
          · exact absurd (hy₂ x h) (lexLt_asymm (hx₂ y h'))
      subst hxy
      have htail : ∀ z, z ∈ xs ↔ z ∈ ys := by
        intro z
        constructor
        · intro hz
          rcases List.mem_cons.mp ((hm z).mp (List.mem_cons.mpr (Or.inr hz))) with h | h
          · exact absurd (h ▸ hx₂ z hz) (lexLt_irrefl z)
          · exact h
        · intro hz
          rcases List.mem_cons.mp ((hm z).mpr (List.mem_cons.mpr (Or.inr hz))) with h | h
          · exact absurd (h ▸ hy₂ z hz) (lexLt_irrefl z)
          · exact h
      rw [ih hxs hys htail]

/-!
## Address-set lemmas
-/

theorem get?_append (a : Addr) (b : Addr) (t : Elem) :
    t.get? (a ++ b) = (t.get? a).bind (fun s => s.get? b) := by
  induction a generalizing t with
  | nil => simp [Elem.get?]
  | cons i a' ih =>
    cases t with
    | node n tx cs =>
      simp only [List.cons_append, Elem.get?]
      cases cs[i]? with
      | none => rfl
      | some c => exact ih c

theorem isSome_of_pfx {a b : Addr} {t : Elem} (h : pfx a b)
    (hb : (t.get? b).isSome = true) : (t.get? a).isSome = true := by
  rcases pfx_iff_append.mp h with ⟨c, rfl⟩
  rw [get?_append] at hb
  cases hg : t.get? a with
  | none => rw [hg] at hb; simp at hb
  | some s => simp

theorem mem_forestAddrs {b : Addr} {cs : List Elem} {i : Nat} :
    b ∈ forestAddrs i cs ↔
      ∃ k a', b = (i + k) :: a' ∧ ∃ c, cs[k]? = some c ∧ a' ∈ Elem.addrs c := by
  induction cs generalizing i with
  | nil =>
    simp only [forestAddrs, List.not_mem_nil, false_iff]
    rintro ⟨k, a', -, c, hc, -⟩
    simp at hc
  | cons c cs' ih =>
    simp only [forestAddrs, List.mem_append, List.mem_map]
    constructor
    · rintro (⟨a', ha', rfl⟩ | h)
      · exact ⟨0, a', by simp, c, by simp, ha'⟩
      · rcases ih.mp h with ⟨k, a', rfl, c', hc', ha'⟩
        refine ⟨k + 1, a', ?_, c', by simpa using hc', ha'⟩
        congr 1
        omega
    · rintro ⟨k, a', rfl, c', hc', ha'⟩
      cases k with
      | zero =>
        simp only [List.getElem?_cons_zero, Option.some.injEq] at hc'
        subst hc'
        exact Or.inl ⟨a', ha', by simp⟩
      | succ m =>
        exact Or.inr (ih.mpr ⟨m, a', by congr 1; omega, c', by simpa using hc', ha'⟩)

theorem mem_addrs {a : Addr} {t : Elem} : a ∈ t.addrs ↔ (t.get? a).isSome = true := by
  induction a generalizing t with
  | nil =>
    cases t with
    | node n tx cs => simp [Elem.addrs, Elem.get?]
  | cons i a' ih =>
    cases t with
    | node n tx cs =>
      simp only [Elem.addrs, List.mem_cons]
      constructor
      · rintro (h | h)
        · cases h
        · rcases mem_forestAddrs.mp h with ⟨k, a'', he, c, hc, ha''⟩
          injection he with h₁ h₂
          subst h₂
          simp only [Nat.zero_add] at h₁
          subst h₁
          simp only [Elem.get?, hc]
          exact ih.mp ha''
      · intro h
        simp only [Elem.get?] at h
        cases hc : cs[i]? with
        | none => rw [hc] at h; simp at h
        | some c =>
          rw [hc] at h
          exact Or.inr (mem_forestAddrs.mpr ⟨i, a', by simp, c, hc, ih.mpr h⟩)

theorem esize_le_fsize_of_mem {c : Elem} {cs : List Elem} (h : c ∈ cs) : esize c ≤ fsize cs := by
  induction cs with
  | nil => cases h
  | cons d ds ih =>
    rcases List.mem_cons.mp h with rfl | h'
    · simp only [fsize]
      omega
    · have := ih h'
      simp only [fsize]
      omega

theorem elemMemOfGet {c : Elem} {cs : List Elem} {k : Nat} (h : cs[k]? = some c) : c ∈ cs :=
  List.getElem?_mem h

theorem pairwise_forestAddrs {cs : List Elem} {i : Nat}
    (h : ∀ c ∈ cs, (Elem.addrs c).Pairwise lexLt) :
    (forestAddrs i cs).Pairwise lexLt := by
  induction cs generalizing i with
  | nil => simp [forestAddrs]
  | cons c cs' ih =>
    simp only [forestAddrs]
    rw [List.pairwise_append]
    refine ⟨?_, ih (fun c' hc' => h c' (List.mem_cons.mpr (Or.inr hc'))), ?_⟩
    · exact (h c (List.mem_cons_self c cs')).map _
        (fun {u v} huv => Or.inr ⟨rfl, huv⟩)
    · rintro x hx y hy
      rcases List.mem_map.mp hx with ⟨u, -, rfl⟩
      rcases mem_forestAddrs.mp hy with ⟨k, v, rfl, -, -, -⟩
      exact Or.inl (by omega)

theorem pairwise_addrs_bound : ∀ (n : Nat) (t : Elem), esize t ≤ n → (Elem.addrs t).Pairwise lexLt := by
  intro n
  induction n with
  | zero =>
    intro t h
    cases t with
    | node nm tx cs => simp [esize] at h
  | succ m ih =>
    intro t h
    cases t with
    | node nm tx cs =>
      simp only [Elem.addrs]
      rw [List.pairwise_cons]
      constructor
      · intro y hy
        rcases mem_forestAddrs.mp hy with ⟨k, v, rfl, -, -, -⟩
        simp [lexLt]
      · refine pairwise_forestAddrs (fun c hc => ih c ?_)
        have h₁ := esize_le_fsize_of_mem hc
        simp only [esize] at h
        omega

theorem pairwise_addrs (t : Elem) : (Elem.addrs t).Pairwise lexLt :=
  pairwise_addrs_bound (esize t) t (Nat.le_refl _)

/-!
## Mutation lemmas: `modifyAt`, `setTextAt`, `appendAt`
-/

theorem get?_cons (n : String) (tx : Option String) (cs : List Elem) (i : Nat) (a : Addr) :
    (Elem.node n tx cs).get? (i :: a) = (cs[i]?).bind (fun c => c.get? a) := by
  cases h : cs[i]? <;> simp [Elem.get?, h]

theorem modify_cons_some {cs : List Elem} {i : Nat} {c : Elem} (hc : cs[i]? = some c)
    (n : String) (tx : Option String) (a : Addr) (f : Elem → Elem) :
    (Elem.node n tx cs).modifyAt (i :: a) f =
      Elem.node n tx (cs.take i ++ [c.modifyAt a f] ++ cs.drop (i+1)) := by
  simp [Elem.modifyAt, hc]

theorem modify_cons_none {cs : List Elem} {i : Nat} (hc : cs[i]? = none)
    (n : String) (tx : Option String) (a : Addr) (f : Elem → Elem) :
    (Elem.node n tx cs).modifyAt (i :: a) f = Elem.node n tx cs := by
  simp [Elem.modifyAt, hc]

theorem surgGet {α : Type} (l : List α) (i : Nat) (x : α) (hi : i < l.length) (j : Nat) :
    (l.take i ++ [x] ++ l.drop (i+1))[j]? = if j = i then some x else l[j]? := by
  induction l generalizing i j with
  | nil => simp at hi
  | cons d ds ih =>
    cases i with
    | zero =>
      cases j with
      | zero => simp
      | succ k => simp
    | succ m =>
      simp only [List.take_succ_cons, List.drop_succ_cons, List.cons_append]
      cases j with
      | zero => simp
      | succ k =>
        simp only [List.getElem?_cons_succ]
        rw [ih m (by simpa using hi) k]
        by_cases h : k = m
        · rw [if_pos h, if_pos (by omega)]
        · rw [if_neg h, if_neg (by omega)]

theorem surgSelf {α : Type} (l : List α) (i : Nat) (c : α) (h : l[i]? = some c) :
    l.take i ++ [c] ++ l.drop (i+1) = l := by
  induction l generalizing i with
  | nil => simp at h
  | cons d ds ih =>
    cases i with
    | zero =>
      simp only [List.getElem?_cons_zero, Option.some.injEq] at h
      subst h
      simp
    | succ m =>
      simp only [List.getElem?_cons_succ] at h
      have := ih m h
      simp only [List.take_succ_cons, List.drop_succ_cons, List.cons_append,
        List.append_assoc, List.nil_append, List.singleton_append] at this ⊢
      rw [this]

theorem surgLen {α : Type} (l : List α) (i : Nat) (x : α) (hi : i < l.length) :
    (l.take i ++ [x] ++ l.drop (i+1)).length = l.length := by
  simp
  omega

theorem modifyAt_invalid {t : Elem} {a : Addr} (h : t.get? a = none) (f : Elem → Elem) :
    t.modifyAt a f = t := by
  induction a generalizing t with
  | nil => simp [Elem.get?] at h
  | cons i a' ih =>
    cases t with
    | node n tx cs =>
      rw [get?_cons] at h
      cases hc : cs[i]? with
      | none => exact modify_cons_none hc n tx a' f
      | some c =>
        rw [hc] at h
        simp at h
        rw [modify_cons_some hc, ih h, surgSelf cs i c hc]

theorem get?_modify_pfx (b c : Addr) (t : Elem) (f : Elem → Elem) :
    (t.modifyAt (b ++ c) f).get? b = (t.get? b).map (fun s => s.modifyAt c f) := by
  induction b generalizing t with
  | nil => simp [Elem.get?]
  | cons i b' ih =>
    cases t with
    | node n tx cs =>
      simp only [List.cons_append]
      cases hc : cs[i]? with
      | none =>
        rw [modify_cons_none hc, get?_cons, hc]
        rfl
      | some ci =>
        have hlt : i < cs.length := by
          by_contra hcon
          rw [List.getElem?_eq_none (by omega)] at hc
          cases hc
        rw [modify_cons_some hc, get?_cons, get?_cons, hc,
          surgGet cs i _ hlt i, if_pos rfl]
        simpa using ih ci

theorem get?_modify_unrel {a b : Addr} (t : Elem) (f : Elem → Elem)
    (h₁ : ¬ pfx a b) (h₂ : ¬ pfx b a) : (t.modifyAt a f).get? b = t.get? b := by
  induction a generalizing b t with
  | nil => exact absurd trivial h₁
  | cons i a' ih =>
    cases b with
    | nil => exact absurd trivial h₂
    | cons j b' =>
      cases t with
      | node n tx cs =>
        cases hc : cs[i]? with
        | none => rw [modify_cons_none hc]
        | some ci =>
          have hlt : i < cs.length := by
            by_contra hcon
            rw [List.getElem?_eq_none (by omega)] at hc
            cases hc
          rw [modify_cons_some hc, get?_cons, get?_cons, surgGet cs i _ hlt j]
          by_cases hij : j = i
          · subst hij
            rw [if_pos rfl, hc]
            have h₁' : ¬ pfx a' b' := fun hp => h₁ ⟨rfl, hp⟩
            have h₂' : ¬ pfx b' a' := fun hp => h₂ ⟨rfl, hp⟩
            simpa using ih ci h₁' h₂'
          · rw [if_neg hij]

theorem pfx_append_cancel (x : Addr) {u v : Addr} : pfx (x ++ u) (x ++ v) ↔ pfx u v := by
  induction x with
  | nil => simp
  | cons i x' ih => simpa [pfx] using ih

theorem get?_same_kids (s : Elem) (nm : String) (tx : Option String) (j : Nat) (c : Addr) :
    (Elem.node nm tx (kidsOf s)).get? (j :: c) = s.get? (j :: c) := by
  cases s with
  | node n₀ t₀ cs => rw [get?_cons, get?_cons]; rfl

theorem setText_get (t : Elem) (a b : Addr) (v : String) :
    (setTextAt t a v).get? b =
      if pfx b a then (t.get? b).map (fun s => setTextAt s (a.drop b.length) v)
      else t.get? b := by
  by_cases hba : pfx b a
  · rw [if_pos hba]
    rcases pfx_iff_append.mp hba with ⟨c, rfl⟩
    rw [show (b ++ c).drop b.length = c from List.drop_left b c]
    exact get?_modify_pfx b c t _
  · rw [if_neg hba]
    by_cases hab : pfx a b
    · rcases pfx_iff_append.mp hab with ⟨d, rfl⟩
      cases d with
      | nil => exact absurd (by simpa using pfx_refl a) hba
      | cons j c =>
        rw [get?_append, get?_append]
        have h₀ := get?_modify_pfx a [] t (fun e => Elem.node (nameOf e) (some v) (kidsOf e))
        rw [List.append_nil] at h₀
        rw [show setTextAt t a v = t.modifyAt a _ from rfl, h₀]
        cases hs : t.get? a with
        | none => rfl
        | some s =>
          cases s with
          | node ns ts css =>
            show (Elem.node ns (some v) css).get? (j :: c) = (Elem.node ns ts css).get? (j :: c)
            rw [get?_cons, get?_cons]
    · exact get?_modify_unrel t _ hab hba

theorem setText_valid (t : Elem) (a : Addr) (v : String) (b : Addr) :
    ((setTextAt t a v).get? b).isSome = (t.get? b).isSome := by
  rw [setText_get]
  split
  · cases t.get? b <;> rfl
  · rfl

theorem setText_nameOf (s : Elem) (c : Addr) (v : String) :
    nameOf (setTextAt s c v) = nameOf s := by
  cases c with
  | nil => cases s; rfl
  | cons i c' =>
    cases s with
    | node n tx cs =>
      unfold setTextAt Elem.modifyAt
      cases cs[i]? <;> rfl

theorem setText_textOf_cons (s : Elem) (j : Nat) (c : Addr) (v : String) :
    textOf (setTextAt s (j :: c) v) = textOf s := by
  cases s with
  | node n tx cs =>
    unfold setTextAt Elem.modifyAt
    cases cs[j]? <;> rfl

theorem setText_name (t : Elem) (a : Addr) (v : String) (b : Addr) :
    nameAt (setTextAt t a v) b = nameAt t b := by
  unfold nameAt
  rw [setText_get]
  split
  · cases t.get? b with
    | none => rfl
    | some s => simp [setText_nameOf]
  · rfl

theorem setText_kidNamesOf (s : Elem) (c : Addr) (v : String) :
    (kidsOf (setTextAt s c v)).map nameOf = (kidsOf s).map nameOf := by
  cases c with
  | nil => cases s; rfl
  | cons i c' =>
    cases s with
    | node n tx cs =>
      show (kidsOf ((Elem.node n tx cs).modifyAt (i :: c') _)).map nameOf = _
      cases hc : cs[i]? with
      | none => rw [modify_cons_none hc]
      | some ci =>
        rw [modify_cons_some hc]
        have hlt : i < cs.length := by
          by_contra hcon
          rw [List.getElem?_eq_none (by omega)] at hc
          cases hc
        show (cs.take i ++ [ci.modifyAt c' _] ++ cs.drop (i+1)).map nameOf = cs.map nameOf
        rw [List.map_append, List.map_append, List.map_take, List.map_drop]
        have hname : nameOf (ci.modifyAt c' (fun e => Elem.node (nameOf e) (some v) (kidsOf e)))
            = nameOf ci := setText_nameOf ci c' v
        simp only [List.map_cons, List.map_nil, hname]
        exact surgSelf (cs.map nameOf) i (nameOf ci) (by rw [List.getElem?_map, hc]; rfl)

theorem setText_kidNames (t : Elem) (a : Addr) (v : String) (b : Addr) :
    kidNames (setTextAt t a v) b = kidNames t b := by
  unfold kidNames
  rw [setText_get]
  split
  · cases t.get? b with
    | none => rfl
    | some s => simp [setText_kidNamesOf]
  · rfl

theorem setText_text_ne (t : Elem) (a : Addr) (v : String) (b : Addr) (hne : b ≠ a) :
    textAtNode (setTextAt t a v) b = textAtNode t b := by
  unfold textAtNode
  rw [setText_get]
  split
  · rename_i hba
    rcases pfx_iff_append.mp hba with ⟨c, rfl⟩
    cases c with
    | nil => exact absurd (by simp) hne
    | cons j c' =>
      rw [show (b ++ j :: c').drop b.length = j :: c' from List.drop_left b _]
      cases t.get? b with
      | none => rfl
      | some s => simp [setText_textOf_cons]
  · rfl

theorem setText_text_self (t : Elem) (a : Addr) (v : String)
    (hv : (t.get? a).isSome = true) : textAtNode (setTextAt t a v) a = some v := by
  unfold textAtNode
  rw [setText_get, if_pos (pfx_refl a), List.drop_length]
  cases hs : t.get? a with
  | none => rw [hs] at hv; cases hv
  | some s => cases s; rfl

theorem setText_absorb (t : Elem) (a : Addr) (v : String)
    (h : textAtNode t a = some v) : setTextAt t a v = t := by
  induction a generalizing t with
  | nil =>
    cases t with
    | node n tx cs =>
      unfold textAtNode Elem.get? at h
      simp only [Option.bind] at h
      cases tx with
      | none => simp [textOf] at h
      | some w =>
        have : w = v := by simpa [textOf] using h
        subst this
        rfl
  | cons i a' ih =>
    cases t with
    | node n tx cs =>
      unfold textAtNode at h
      rw [get?_cons] at h
      cases hc : cs[i]? with
      | none => rw [hc] at h; cases h
      | some ci =>
        rw [hc] at h
        simp only [Option.bind_eq_bind, Option.some_bind] at h
        show (Elem.node n tx cs).modifyAt (i :: a') _ = _
        rw [modify_cons_some hc]
        have : ci.modifyAt a' (fun e => Elem.node (nameOf e) (some v) (kidsOf e)) = ci := ih ci h
        rw [this, surgSelf cs i ci hc]

theorem childCountAt_eq {t : Elem} {a : Addr} {s : Elem} (hs : t.get? a = some s) :
    childCountAt t a = (kidsOf s).length := by
  simp [childCountAt, hs]

theorem append_get (t : Elem) (a : Addr) (e : Elem) (b : Addr)
    (hv : (t.get? a).isSome = true) :
    (appendAt t a e).get? b =
      if pfx b a then (t.get? b).map (fun s => appendAt s (a.drop b.length) e)
      else if pfx (a ++ [childCountAt t a]) b then e.get? (b.drop (a.length + 1))
      else t.get? b := by
  by_cases hba : pfx b a
  · rw [if_pos hba]
    rcases pfx_iff_append.mp hba with ⟨c, rfl⟩
    rw [show (b ++ c).drop b.length = c from List.drop_left b c]
    exact get?_modify_pfx b c t _
  · rw [if_neg hba]
    by_cases hab : pfx a b
    · rcases pfx_iff_append.mp hab with ⟨d, rfl⟩
      cases d with
      | nil => exact absurd (by simpa using pfx_refl a) hba
      | cons j c =>
        cases hs : t.get? a with
        | none => rw [hs] at hv; cases hv
        | some s =>
          cases s with
          | node ns ts css =>
            rw [get?_append]
            have h₀ := get?_modify_pfx a [] t
              (fun x => Elem.node (nameOf x) (textOf x) (kidsOf x ++ [e]))
            rw [List.append_nil] at h₀
            rw [show appendAt t a e = t.modifyAt a _ from rfl, h₀, hs]
            have hcnt : childCountAt t a = css.length := childCountAt_eq hs
            show (Elem.node ns ts (css ++ [e])).get? (j :: c) = _
            rw [get?_cons]
            rcases Nat.lt_trichotomy j css.length with hj | hj | hj
            · rw [List.getElem?_append_left hj]
              have hg : ¬ pfx (a ++ [childCountAt t a]) (a ++ j :: c) := by
                rw [pfx_append_cancel a]
                rintro ⟨hje, -⟩
                omega
              rw [if_neg hg, get?_append, hs]
              show (css[j]?.bind fun x => x.get? c) = (Elem.node ns ts css).get? (j :: c)
              rw [get?_cons]
            · have hg : pfx (a ++ [childCountAt t a]) (a ++ j :: c) := by
                rw [pfx_append_cancel a]
                exact ⟨by omega, trivial⟩
              rw [if_pos hg]
              rw [List.getElem?_append_right (by omega), show j - css.length = 0 by omega]
              have hdrop : (a ++ j :: c).drop (a.length + 1) = c := by
                rw [show a ++ j :: c = (a ++ [j]) ++ c by simp]
                exact List.drop_left' (by simp)
              rw [hdrop]
              rfl
            · have hg : ¬ pfx (a ++ [childCountAt t a]) (a ++ j :: c) := by
                rw [pfx_append_cancel a]
                rintro ⟨hje, -⟩
                omega
              rw [if_neg hg, get?_append, hs]
              show ((css ++ [e])[j]?.bind fun x => x.get? c) = (Elem.node ns ts css).get? (j :: c)
              have hL : (css ++ [e])[j]? = none :=
                List.getElem?_eq_none (by simp; omega)
              have hR : css[j]? = none := List.getElem?_eq_none (by omega)
              rw [get?_cons, hL, hR]
    · have hg : ¬ pfx (a ++ [childCountAt t a]) b := by
        intro h
        exact hab (pfx_trans (pfx_append a [childCountAt t a]) h)
      rw [if_neg hg]
      exact get?_modify_unrel t _ hab hba

theorem append_nameOf (s : Elem) (c : Addr) (e : Elem) :
    nameOf (appendAt s c e) = nameOf s := by
  cases c with
  | nil => cases s; rfl
  | cons i c' =>
    cases s with
    | node n tx cs =>
      unfold appendAt Elem.modifyAt
      cases cs[i]? <;> rfl

theorem append_textOf_cons (s : Elem) (j : Nat) (c : Addr) (e : Elem) :
    textOf (appendAt s (j :: c) e) = textOf s := by
  cases s with
  | node n tx cs =>
    unfold appendAt Elem.modifyAt
    cases cs[j]? <;> rfl

theorem append_textOf_nil (s : Elem) (e : Elem) : textOf (appendAt s [] e) = textOf s := by
  cases s; rfl

theorem invalid_beyond {t : Elem} {x b : Addr} (h : t.get? x = none) (hp : pfx x b) :
    t.get? b = none := by
  rcases pfx_iff_append.mp hp with ⟨c, rfl⟩
  rw [get?_append, h]
  rfl

theorem append_cnt_invalid {t : Elem} {a : Addr} {s : Elem} (hs : t.get? a = some s) :
    t.get? (a ++ [childCountAt t a]) = none := by
  rw [get?_append, hs]
  cases s with
  | node ns ts css =>
    show (Elem.node ns ts css).get? [childCountAt t a] = none
    rw [get?_cons, childCountAt_eq hs, List.getElem?_eq_none (by simp [kidsOf])]
    rfl

theorem append_valid_old {t : Elem} {a : Addr} {e : Elem} {b : Addr}
    (hv : (t.get? a).isSome = true) (hb : (t.get? b).isSome = true) :
    ((appendAt t a e).get? b).isSome = true := by
  rw [append_get t a e b hv]
  split
  · cases hg : t.get? b with
    | none => rw [hg] at hb; cases hb
    | some s => rfl
  · split
    · rename_i hcnt
      cases hs : t.get? a with
      | none => rw [hs] at hv; cases hv
      | some s =>
        have := invalid_beyond (append_cnt_invalid hs) hcnt
        rw [this] at hb
        cases hb
    · exact hb

theorem append_name_old {t : Elem} {a : Addr} {e : Elem} {b : Addr}
    (hv : (t.get? a).isSome = true) (hb : (t.get? b).isSome = true) :
    nameAt (appendAt t a e) b = nameAt t b := by
  unfold nameAt
  rw [append_get t a e b hv]
  split
  · cases t.get? b with
    | none => rfl
    | some s => simp [append_nameOf]
  · split
    · rename_i hcnt
      cases hs : t.get? a with
      | none => rw [hs] at hv; cases hv
      | some s =>
        have := invalid_beyond (append_cnt_invalid hs) hcnt
        rw [this] at hb
        cases hb
    · rfl

theorem append_text_old {t : Elem} {a : Addr} {e : Elem} {b : Addr}
    (hv : (t.get? a).isSome = true) (hb : (t.get? b).isSome = true) :
    textAtNode (appendAt t a e) b = textAtNode t b := by
  unfold textAtNode
  rw [append_get t a e b hv]
  split
  · rename_i hba
    rcases pfx_iff_append.mp hba with ⟨c, rfl⟩
    cases c with
    | nil =>
      simp only [List.append_nil, List.drop_length]
      cases t.get? b with
      | none => rfl
      | some s => simp [append_textOf_nil]
    | cons j c' =>
      rw [show (b ++ j :: c').drop b.length = j :: c' from List.drop_left b _]
      cases t.get? b with
      | none => rfl
      | some s => simp [append_textOf_cons]
  · split
    · rename_i hcnt
      cases hs : t.get? a with
      | none => rw [hs] at hv; cases hv
      | some s =>
        have := invalid_beyond (append_cnt_invalid hs) hcnt
        rw [this] at hb
        cases hb
    · rfl

theorem append_new_get (t : Elem) (a : Addr) (e : Elem) (w : Addr)
    (hv : (t.get? a).isSome = true) :
    (appendAt t a e).get? (a ++ childCountAt t a :: w) = e.get? w := by
  rw [append_get t a e _ hv]
  have h₁ : ¬ pfx (a ++ childCountAt t a :: w) a := by
    intro h
    have := pfx_length h
    simp at this
  rw [if_neg h₁]
  have h₂ : pfx (a ++ [childCountAt t a]) (a ++ childCountAt t a :: w) := by
    rw [pfx_append_cancel a]
    exact ⟨rfl, trivial⟩
  rw [if_pos h₂]
  have hdrop : (a ++ childCountAt t a :: w).drop (a.length + 1) = w := by
    rw [show a ++ childCountAt t a :: w = (a ++ [childCountAt t a]) ++ w by simp]
    exact List.drop_left' (by simp)
  rw [hdrop]

theorem append_valid_iff {t : Elem} {a : Addr} {e : Elem} {b : Addr}
    (hv : (t.get? a).isSome = true) :
    ((appendAt t a e).get? b).isSome = true ↔
      (t.get? b).isSome = true ∨
        (pfx (a ++ [childCountAt t a]) b ∧ (e.get? (b.drop (a.length + 1))).isSome = true) := by
  rw [append_get t a e b hv]
  split
  · rename_i hba
    constructor
    · intro h
      cases hg : t.get? b with
      | none => rw [hg] at h; cases h
      | some s => exact Or.inl rfl
    · intro h
      rcases h with h | ⟨hcnt, -⟩
      · cases hg : t.get? b with
        | none => rw [hg] at h; cases h
        | some s => rfl
      · exfalso
        have h₁ := pfx_length hcnt
        have h₂ := pfx_length hba
        simp at h₁
        omega
  · split
    · rename_i hcnt
      constructor
      · intro h
        exact Or.inr ⟨hcnt, h⟩
      · intro h
        rcases h with h | ⟨-, h⟩
        · cases hs : t.get? a with
          | none => rw [hs] at hv; cases hv
          | some s =>
            have := invalid_beyond (append_cnt_invalid hs) hcnt
            rw [this] at h
            cases h
        · exact h
    · rename_i hba hcnt
      constructor
      · exact fun h => Or.inl h
      · intro h
        rcases h with h | ⟨hc, -⟩
        · exact h
        · exact absurd hc hcnt

theorem append_kidNamesOf_cons (s : Elem) (j : Nat) (c : Addr) (e : Elem) :
    (kidsOf (appendAt s (j :: c) e)).map nameOf = (kidsOf s).map nameOf := by
  cases s with
  | node n tx cs =>
    show (kidsOf ((Elem.node n tx cs).modifyAt (j :: c) _)).map nameOf = _
    cases hc : cs[j]? with
    | none => rw [modify_cons_none hc]
    | some cj =>
      rw [modify_cons_some hc]
      show (cs.take j ++ [cj.modifyAt c _] ++ cs.drop (j+1)).map nameOf = cs.map nameOf
      rw [List.map_append, List.map_append, List.map_take, List.map_drop]
      have hname : nameOf (cj.modifyAt c (fun x => Elem.node (nameOf x) (textOf x) (kidsOf x ++ [e])))
          = nameOf cj := append_nameOf cj c e
      simp only [List.map_cons, List.map_nil, hname]
      exact surgSelf (cs.map nameOf) j (nameOf cj) (by rw [List.getElem?_map, hc]; rfl)

theorem append_kidNames_self {t : Elem} {a : Addr} (e : Elem)
    (hv : (t.get? a).isSome = true) :
    kidNames (appendAt t a e) a = kidNames t a ++ [nameOf e] := by
  unfold kidNames
  rw [append_get t a e a hv, if_pos (pfx_refl a), List.drop_length]
  cases hs : t.get? a with
  | none => rw [hs] at hv; cases hv
  | some s =>
    cases s with
    | node ns ts css => simp [appendAt, Elem.modifyAt, kidsOf]

theorem append_kidNames_old {t : Elem} {a : Addr} {e : Elem} {b : Addr}
    (hv : (t.get? a).isSome = true) (hb : (t.get? b).isSome = true) (hne : b ≠ a) :
    kidNames (appendAt t a e) b = kidNames t b := by
  unfold kidNames
  rw [append_get t a e b hv]
  split
  · rename_i hba
    rcases pfx_iff_append.mp hba with ⟨c, rfl⟩
    cases c with
    | nil => exact absurd (by simp) hne
    | cons j c' =>
      rw [show (b ++ j :: c').drop b.length = j :: c' from List.drop_left b _]
      cases t.get? b with
      | none => rfl
      | some s => simp [append_kidNamesOf_cons]
  · split
    · rename_i hcnt
      cases hs : t.get? a with
      | none => rw [hs] at hv; cases hv
      | some s =>
        have := invalid_beyond (append_cnt_invalid hs) hcnt
        rw [this] at hb
        cases hb
    · rfl

/-!
## Query-result lemmas: `chainHits`, `descHits`
-/

theorem mem_chainHits {t : Elem} {ps : List String} {a : Addr} :
    a ∈ chainHits t ps ↔ chainMatch t ps a := by
  unfold chainHits
  rw [List.mem_filter]
  constructor
  · rintro ⟨-, hd⟩
    exact of_decide_eq_true hd
  · intro h
    exact ⟨mem_addrs.mpr h.1, decide_eq_true h⟩

theorem pairwise_chainHits (t : Elem) (ps : List String) :
    (chainHits t ps).Pairwise lexLt :=
  (pairwise_addrs t).filter _

theorem mem_descHits {t : Elem} {base : Addr} {nm : String} {a : Addr} :
    a ∈ descHits t base nm ↔ pfx base a ∧ a ≠ base ∧ nameAt t a = some nm := by
  unfold descHits
  rw [List.mem_filter]
  constructor
  · rintro ⟨-, hd⟩
    exact of_decide_eq_true hd
  · intro h
    refine ⟨mem_addrs.mpr ?_, decide_eq_true h⟩
    have := h.2.2
    unfold nameAt at this
    cases hg : t.get? a with
    | none => rw [hg] at this; cases this
    | some s => rfl

theorem pairwise_descHits (t : Elem) (base : Addr) (nm : String) :
    (descHits t base nm).Pairwise lexLt :=
  (pairwise_addrs t).filter _

theorem sorted_head_min {l : List Addr} (hs : l.Pairwise lexLt) {x : Addr} {xs : List Addr}
    (he : l = x :: xs) {y : Addr} (hy : y ∈ l) : x = y ∨ lexLt x y := by
  subst he
  rcases List.mem_cons.mp hy with rfl | hy'
  · exact Or.inl rfl
  · exact Or.inr ((List.pairwise_cons.mp hs).1 y hy')

theorem eq_nil_of_no_mem {l : List Addr} (h : ∀ x, x ∉ l) : l = [] := by
  cases l with
  | nil => rfl
  | cons x xs => exact absurd (List.mem_cons_self x xs) (h x)

theorem chainMatch_congr {t₁ t₂ : Elem} (ps : List String) (a : Addr)
    (hval : ∀ x, ((t₁.get? x).isSome = true) ↔ ((t₂.get? x).isSome = true))
    (hname : ∀ x, nameAt t₁ x = nameAt t₂ x) :
    chainMatch t₁ ps a ↔ chainMatch t₂ ps a := by
  unfold chainMatch
  constructor
  · rintro ⟨h₁, h₂, h₃, h₄⟩
    exact ⟨(hval a).mp h₁, h₂, h₃, fun r hr => (hname _).symm.trans (h₄ r hr)⟩
  · rintro ⟨h₁, h₂, h₃, h₄⟩
    exact ⟨(hval a).mpr h₁, h₂, h₃, fun r hr => (hname _).trans (h₄ r hr)⟩

theorem chainHits_congr {t₁ t₂ : Elem} (ps : List String)
    (hval : ∀ x, ((t₁.get? x).isSome = true) ↔ ((t₂.get? x).isSome = true))
    (hname : ∀ x, nameAt t₁ x = nameAt t₂ x) :
    chainHits t₁ ps = chainHits t₂ ps := by
  refine sorted_ext (pairwise_chainHits t₁ ps) (pairwise_chainHits t₂ ps) (fun x => ?_)
  rw [mem_chainHits, mem_chainHits]
  exact chainMatch_congr ps x hval hname

theorem descHits_congr {t₁ t₂ : Elem} (base : Addr) (nm : String)
    (hname : ∀ x, nameAt t₁ x = nameAt t₂ x) :
    descHits t₁ base nm = descHits t₂ base nm := by
  refine sorted_ext (pairwise_descHits t₁ base nm) (pairwise_descHits t₂ base nm) (fun x => ?_)
  rw [mem_descHits, mem_descHits, hname x]

theorem setText_chainHits (t : Elem) (a : Addr) (v : String) (ps : List String) :
    chainHits (setTextAt t a v) ps = chainHits t ps :=
  chainHits_congr ps
    (fun x => by rw [setText_valid])
    (fun x => setText_name t a v x)

theorem setText_descHits (t : Elem) (a : Addr) (v : String) (base : Addr) (nm : String) :
    descHits (setTextAt t a v) base nm = descHits t base nm :=
  descHits_congr base nm (fun x => setText_name t a v x)

/-!
## Creation-phase (`appendChain`, `createPath`) specification
-/

theorem leaf_get (r : String) (w : Addr) :
    (Elem.node r none []).get? w = if w = [] then some (Elem.node r none []) else none := by
  cases w with
  | nil => rfl
  | cons x w' =>
    rw [if_neg (by simp), get?_cons]
    simp

theorem pfx_eq_of_length_le {x b : Addr} (h : pfx x b) (hl : b.length ≤ x.length) : x = b := by
  rcases pfx_iff_append.mp h with ⟨c, rfl⟩
  simp at hl
  simp [hl]

theorem appendChain_spec : ∀ (rs : List String) (t : Elem) (D : Addr),
    (t.get? D).isSome = true →
    pfx D (appendChain t D rs).2 ∧
    (appendChain t D rs).2.length = D.length + rs.length ∧
    (∀ b, (t.get? b).isSome = true →
      (((appendChain t D rs).1.get? b).isSome = true ∧
       nameAt (appendChain t D rs).1 b = nameAt t b ∧
       textAtNode (appendChain t D rs).1 b = textAtNode t b)) ∧
    (∀ b, (((appendChain t D rs).1.get? b).isSome = true) ↔
       ((t.get? b).isSome = true ∨ (pfx b (appendChain t D rs).2 ∧ D.length < b.length))) ∧
    (∀ k, (hk : k < rs.length) →
       nameAt (appendChain t D rs).1 ((appendChain t D rs).2.take (D.length + k + 1))
         = some (rs.get ⟨k, hk⟩) ∧
       textAtNode (appendChain t D rs).1 ((appendChain t D rs).2.take (D.length + k + 1))
         = none) := by
  intro rs
  induction rs with
  | nil =>
    intro t D hv
    refine ⟨pfx_refl D, by simp [appendChain], ?_, ?_, ?_⟩
    · intro b hb
      exact ⟨hb, rfl, rfl⟩
    · intro b
      constructor
      · exact fun h => Or.inl h
      · rintro (h | ⟨hp, hl⟩)
        · exact h
        · exact absurd (pfx_length hp) (by simp [appendChain] at hl ⊢; omega)
    · intro k hk
      cases hk
  | cons r rs' ih =>
    intro t D hv
    have heq : appendChain t D (r :: rs') =
        appendChain (appendAt t D (Elem.node r none [])) (D ++ [childCountAt t D]) rs' := rfl
    set t₂ := appendAt t D (Elem.node r none []) with ht₂
    set D₂ := D ++ [childCountAt t D] with hD₂
    have hD₂len : D₂.length = D.length + 1 := by rw [hD₂]; simp
    have hg₂ : t₂.get? D₂ = some (Elem.node r none []) := by
      have := append_new_get t D (Elem.node r none []) [] hv
      simpa using this
    have hv₂ : (t₂.get? D₂).isSome = true := by rw [hg₂]; rfl
    have hvb : ∀ b, ((t₂.get? b).isSome = true) ↔ ((t.get? b).isSome = true ∨ b = D₂) := by
      intro b
      rw [append_valid_iff hv]
      constructor
      · rintro (h | ⟨hp, hw⟩)
        · exact Or.inl h
        · refine Or.inr ?_
          rcases pfx_iff_append.mp hp with ⟨c, rfl⟩
          rw [List.drop_left' (by simp), leaf_get] at hw
          split at hw
          · rename_i hc
            simp [hc]
          · cases hw
      · rintro (h | rfl)
        · exact Or.inl h
        · refine Or.inr ⟨pfx_refl _, ?_⟩
          rw [show D₂.drop (D.length + 1) = [] from
            List.drop_eq_nil_iff.mpr (by omega), leaf_get, if_pos rfl]
          rfl
    obtain ⟨ih₁, ih₂, ih₃, ih₄, ih₅⟩ := ih t₂ D₂ hv₂
    rw [heq]
    have hDf : pfx D (appendChain t₂ D₂ rs').2 := pfx_trans (pfx_append D _) ih₁
    have hlen : (appendChain t₂ D₂ rs').2.length = D.length + (r :: rs').length := by
      rw [ih₂, hD₂len]
      simp only [List.length_cons]
      omega
    have holdp : ∀ b, (t.get? b).isSome = true →
        (((appendChain t₂ D₂ rs').1.get? b).isSome = true ∧
         nameAt (appendChain t₂ D₂ rs').1 b = nameAt t b ∧
         textAtNode (appendChain t₂ D₂ rs').1 b = textAtNode t b) := by
      intro b hb
      have h₂b : (t₂.get? b).isSome = true := append_valid_old hv hb
      obtain ⟨j₁, j₂, j₃⟩ := ih₃ b h₂b
      exact ⟨j₁, j₂.trans (append_name_old hv hb), j₃.trans (append_text_old hv hb)⟩
    refine ⟨hDf, hlen, holdp, ?_, ?_⟩
    · intro b
      rw [ih₄ b, hvb b]
      constructor
      · rintro ((h | rfl) | ⟨hp, hl⟩)
        · exact Or.inl h
        · exact Or.inr ⟨ih₁, by omega⟩
        · refine Or.inr ⟨hp, by omega⟩
      · rintro (h | ⟨hp, hl⟩)
        · exact Or.inl (Or.inl h)
        · rcases Nat.lt_or_ge D.length (b.length - 1) with hc | hc
          · exact Or.inr ⟨hp, by omega⟩
          · have hb2 : b = D₂ := by
              have hbl : b.length = D.length + 1 := by omega
              have h₁ : (appendChain t₂ D₂ rs').2.take b.length = b := pfx_take_iff.mp hp
              have h₂ : (appendChain t₂ D₂ rs').2.take D₂.length = D₂ := pfx_take_iff.mp ih₁
              rw [show D₂.length = b.length by omega] at h₂
              rw [h₁] at h₂
              exact h₂
            exact Or.inl (Or.inr hb2)
    · intro k hk
      cases k with
      | zero =>
        have htake : (appendChain t₂ D₂ rs').2.take (D.length + 0 + 1) = D₂ := by
          have h₂ : (appendChain t₂ D₂ rs').2.take D₂.length = D₂ := pfx_take_iff.mp ih₁
          rw [show D₂.length = D.length + 0 + 1 by omega] at h₂
          exact h₂
        rw [htake]
        obtain ⟨j₁, j₂, j₃⟩ := ih₃ D₂ hv₂
        constructor
        · rw [j₂]
          unfold nameAt
          rw [hg₂]
          rfl
        · rw [j₃]
          unfold textAtNode
          rw [hg₂]
          rfl
      | succ k' =>
        have hk' : k' < rs'.length := by simpa using hk
        obtain ⟨j₁, j₂⟩ := ih₅ k' hk'
        have harith : D₂.length + k' + 1 = D.length + (k' + 1) + 1 := by omega
        rw [harith] at j₁ j₂
        exact ⟨by rw [j₁]; rfl, j₂⟩

theorem head?_mem {l : List Addr} {x : Addr} (h : l.head? = some x) : x ∈ l := by
  cases l with
  | nil => cases h
  | cons y ys =>
    injection h with h
    exact h ▸ List.mem_cons_self y ys

theorem descHits_head {t : Elem} {base : Addr} {nm : String} {a : Addr}
    (h : (descHits t base nm).head? = some a) :
    pfx base a ∧ a ≠ base ∧ nameAt t a = some nm :=
  mem_descHits.mp (head?_mem h)

theorem valid_of_nameAt {t : Elem} {a : Addr} {nm : String} (h : nameAt t a = some nm) :
    (t.get? a).isSome = true := by
  unfold nameAt at h
  cases hg : t.get? a with
  | none => rw [hg] at h; cases h
  | some s => rfl

theorem dt_pfx {t : Elem} : ∀ {qs : List String} {base D : Addr},
    descendsTo t base qs D → pfx base D := by
  intro qs
  induction qs with
  | nil =>
    intro base D h
    exact h ▸ pfx_refl base
  | cons q qs' ih =>
    rintro base D ⟨a, ha, hrest⟩
    have h₁ := (descHits_head ha).1
    exact pfx_trans h₁ (ih hrest)

theorem dt_valid {t : Elem} : ∀ {qs : List String} {base D : Addr},
    (t.get? base).isSome = true → descendsTo t base qs D → (t.get? D).isSome = true := by
  intro qs
  induction qs with
  | nil =>
    intro base D hb h
    exact h ▸ hb
  | cons q qs' ih =>
    rintro base D hb ⟨a, ha, hrest⟩
    exact ih (valid_of_nameAt (descHits_head ha).2.2) hrest

theorem dt_last {t : Elem} : ∀ {qs : List String} {base D : Addr},
    descendsTo t base qs D → qs ≠ [] → ∀ d, nameAt t D = some (qs.getLastD d) := by
  intro qs
  induction qs with
  | nil => intro base D h hne; exact absurd rfl hne
  | cons q qs' ih =>
    rintro base D ⟨a, ha, hrest⟩ - d
    cases hq : qs' with
    | nil =>
      rw [hq] at hrest
      subst hrest
      simpa using (descHits_head ha).2.2
    | cons x xs =>
      have hne' : qs' ≠ [] := by rw [hq]; exact List.cons_ne_nil x xs
      have h₁ := ih hrest hne' q
      rw [List.getLastD_cons]
      rw [hq] at h₁
      exact h₁

theorem dp_spec {t : Elem} : ∀ (ps : List String) (base : Addr),
    ∃ qs, ps = qs ++ (descendPhase t base ps).2 ∧
      descendsTo t base qs (descendPhase t base ps).1 ∧
      (∀ r rs', (descendPhase t base ps).2 = r :: rs' →
        (descHits t (descendPhase t base ps).1 r).head? = none) := by
  intro ps
  induction ps with
  | nil =>
    intro base
    exact ⟨[], rfl, rfl, fun r rs' h => by cases h⟩
  | cons p rest ih =>
    intro base
    cases hh : (descHits t base p).head? with
    | some a =>
      have heq : descendPhase t base (p :: rest) = descendPhase t a rest := by
        simp [descendPhase, hh]
      rcases ih a with ⟨qs', h₁, h₂, h₃⟩
      refine ⟨p :: qs', ?_, ⟨a, hh, by rw [heq]; exact h₂⟩, ?_⟩
      · rw [heq, List.cons_append]
        exact congrArg _ h₁
      · intro r rs' hr
        rw [heq] at hr
        have := h₃ r rs' hr
        rw [heq]
        exact this
    | none =>
      have heq : descendPhase t base (p :: rest) = (base, p :: rest) := by
        simp [descendPhase, hh]
      refine ⟨[], by rw [heq]; rfl, by rw [heq]; rfl, ?_⟩
      intro r rs' hr
      rw [heq] at hr
      injection hr with hr₁ hr₂
      rw [heq]
      subst hr₁
      exact hh

theorem append_leaf_valid_iff {t : Elem} {D : Addr} (hv : (t.get? D).isSome = true)
    (r : String) (b : Addr) :
    (((appendAt t D (Elem.node r none [])).get? b).isSome = true) ↔
      ((t.get? b).isSome = true ∨ b = D ++ [childCountAt t D]) := by
  rw [append_valid_iff hv]
  constructor
  · rintro (h | ⟨hp, hw⟩)
    · exact Or.inl h
    · refine Or.inr ?_
      rcases pfx_iff_append.mp hp with ⟨c, rfl⟩
      rw [List.drop_left' (by simp), leaf_get] at hw
      split at hw
      · rename_i hc
        simp [hc]
      · cases hw
  · rintro (h | rfl)
    · exact Or.inl h
    · refine Or.inr ⟨pfx_refl _, ?_⟩
      rw [show (D ++ [childCountAt t D]).drop (D.length + 1) = [] from
        List.drop_eq_nil_iff.mpr (by simp), leaf_get, if_pos rfl]
      rfl

theorem cp_fresh {t : Elem} {base : Addr} : ∀ (rs : List String),
    (t.get? base).isSome = true →
    (∀ b, pfx base b → b ≠ base → (t.get? b).isSome = true → False) →
    createPath t base rs = appendChain t base rs := by
  intro rs
  induction rs generalizing t base with
  | nil => intro hb hns; rfl
  | cons r rs' ih =>
    intro hb hns
    have hd : descHits t base r = [] := by
      apply eq_nil_of_no_mem
      intro x hx
      obtain ⟨h₁, h₂, h₃⟩ := mem_descHits.mp hx
      exact hns x h₁ h₂ (valid_of_nameAt h₃)
    have hh : (descHits t base r).head? = none := by rw [hd]; rfl
    show createPath t base (r :: rs') = appendChain t base (r :: rs')
    rw [show createPath t base (r :: rs') =
      createPath (appendAt t base (Elem.node r none []))
        (base ++ [childCountAt t base]) rs' by simp [createPath, hh]]
    show _ = appendChain (appendAt t base (Elem.node r none []))
        (base ++ [childCountAt t base]) rs'
    have hg₂ : (appendAt t base (Elem.node r none [])).get?
        (base ++ [childCountAt t base]) = some (Elem.node r none []) := by
      have := append_new_get t base (Elem.node r none []) [] hb
      simpa using this
    refine ih (by rw [hg₂]; rfl) ?_
    intro b hp hne hval
    rcases (append_leaf_valid_iff hb r b).mp hval with h | h
    · have hpb : pfx base b := pfx_trans (pfx_append base _) hp
      have hneb : b ≠ base := by
        intro hcon
        subst hcon
        have := pfx_length hp
        simp at this
      exact hns b hpb hneb h
    · exact hne h

theorem cp_main {t : Elem} : ∀ (ps : List String) (base : Addr),
    (t.get? base).isSome = true →
    createPath t base ps =
      appendChain t (descendPhase t base ps).1 (descendPhase t base ps).2 := by
  intro ps
  induction ps with
  | nil => intro base hb; rfl
  | cons p rest ih =>
    intro base hb
    cases hh : (descHits t base p).head? with
    | some a =>
      have heq : descendPhase t base (p :: rest) = descendPhase t a rest := by
        simp [descendPhase, hh]
      rw [show createPath t base (p :: rest) = createPath t a rest by simp [createPath, hh], heq]
      exact ih a (valid_of_nameAt (descHits_head hh).2.2)
    | none =>
      have heq : descendPhase t base (p :: rest) = (base, p :: rest) := by
        simp [descendPhase, hh]
      rw [heq]
      rw [show createPath t base (p :: rest) =
        createPath (appendAt t base (Elem.node p none []))
          (base ++ [childCountAt t base]) rest by simp [createPath, hh]]
      show _ = appendChain (appendAt t base (Elem.node p none []))
          (base ++ [childCountAt t base]) rest
      have hg₂ : (appendAt t base (Elem.node p none [])).get?
          (base ++ [childCountAt t base]) = some (Elem.node p none []) := by
        have := append_new_get t base (Elem.node p none []) [] hb
        simpa using this
      refine cp_fresh rest (by rw [hg₂]; rfl) ?_
      intro b hp hne hval
      rcases (append_leaf_valid_iff hb p b).mp hval with h | h
      · cases hs : t.get? base with
        | none => rw [hs] at hb; cases hb
        | some s =>
          have hinv := invalid_beyond (append_cnt_invalid hs) hp
          rw [hinv] at h
          cases h
      · exact hne h

/-!
## No spurious chain match after creation

If the chain XPath had no hit before `_upsert_text` created the missing
hierarchy, then afterwards the only possible hit is the created tip.  The key
step is a dominance argument: any other hit would force the descent chain to
sit strictly inside its own ancestor line, which contradicts the minimality
(document-order-first) of each `.//part` step.
-/

theorem pfx_take_le (l : Addr) {x y : Nat} (h : x ≤ y) : pfx (l.take x) (l.take y) := by
  induction l generalizing x y with
  | nil => simp [pfx]
  | cons a l' ih =>
    cases x with
    | zero => simp [pfx]
    | succ x' =>
      cases y with
      | zero => omega
      | succ y' => exact ⟨rfl, ih (by omega)⟩

theorem dom_aux {t : Elem} : ∀ (qs : List String) (base D : Addr) (B : Nat → Addr),
    descendsTo t base qs D →
    (∀ r, (hr : r < qs.length) → nameAt t (B r) = some (qs.get ⟨r, hr⟩)) →
    (∀ r, r + 1 ≤ qs.length → (B r).length < (B (r + 1)).length ∧ pfx (B r) (B (r + 1))) →
    (∀ r, r < qs.length → pfx (B r) D) →
    (qs ≠ [] → pfx base (B 0) ∧ base ≠ B 0) →
    qs ≠ [] → pfx D (B (qs.length - 1)) := by
  intro qs
  induction qs with
  | nil =>
    intro base D B hdt hnames hs hpD h0 hne
    exact absurd rfl hne
  | cons q qs' ih =>
    intro base D B hdt hnames hs hpD h0 _
    obtain ⟨a, ha, hrest⟩ := hdt
    have hB0name : nameAt t (B 0) = some q := by simpa using hnames 0 (by simp)
    obtain ⟨hpb, hnb⟩ := h0 (List.cons_ne_nil q qs')
    have hB0mem : B 0 ∈ descHits t base q :=
      mem_descHits.mpr ⟨hpb, fun hcon => hnb hcon.symm, hB0name⟩
    have hlist : ∃ tail, descHits t base q = a :: tail := by
      cases hl : descHits t base q with
      | nil => rw [hl] at ha; cases ha
      | cons x xs =>
        rw [hl] at ha
        injection ha with ha
        exact ⟨xs, by rw [ha]⟩
    obtain ⟨tail, htail⟩ := hlist
    have hmin : a = B 0 ∨ lexLt a (B 0) :=
      sorted_head_min (pairwise_descHits t base q) htail hB0mem
    have haD : pfx a D := dt_pfx hrest
    have hB0D : pfx (B 0) D := hpD 0 (by simp)
    have haB0 : pfx a (B 0) := by
      rcases pfx_total_of_common haD hB0D with h | h
      · exact h
      · rcases hmin with he | hlt
        · exact he ▸ pfx_refl a
        · by_cases he : B 0 = a
          · rw [he]
            exact pfx_refl a
          · exact absurd (lexLt_of_pfx h he) (lexLt_asymm hlt)
    cases qs' with
    | nil =>
      have hDa : D = a := hrest
      simpa [hDa] using haB0
    | cons x xs =>
      have hlenB01 : (B 0).length < (B 1).length := (hs 0 (by simp)).1
      have hpfxB01 : pfx (B 0) (B 1) := (hs 0 (by simp)).2
      have hcon := ih a D (fun r => B (r + 1)) hrest
        (fun r hr => by simpa using hnames (r + 1) (by simpa using Nat.succ_lt_succ hr))
        (fun r hr => hs (r + 1) (by simpa using Nat.succ_le_succ hr))
        (fun r hr => hpD (r + 1) (by simpa using Nat.succ_lt_succ hr))
        (fun hne => ⟨pfx_trans haB0 hpfxB01, by
          intro hcon
          have h₁ := pfx_length haB0
          have h₂ : a = B 1 := hcon
          rw [h₂] at h₁
          omega⟩)
        (List.cons_ne_nil x xs)
      simpa using hcon

theorem no_new_chain_match {t : Elem} {ps qs rs : List String} {D : Addr} {v : String}
    (hsplit : ps = qs ++ rs)
    (hdt : descendsTo t [] qs D)
    (hnone : ∀ a, ¬ chainMatch t ps a)
    {b : Addr}
    (hb : chainMatch (setTextAt (appendChain t D rs).1 (appendChain t D rs).2 v) ps b) :
    b = (appendChain t D rs).2 := by
  have hvroot : (t.get? ([] : Addr)).isSome = true := by cases t; rfl
  have hvD : (t.get? D).isSome = true := dt_valid hvroot hdt
  obtain ⟨ac₁, ac₂, ac₃, ac₄, ac₅⟩ := appendChain_spec rs t D hvD
  have hb₁ : chainMatch (appendChain t D rs).1 ps b := by
    refine (chainMatch_congr ps b ?_ ?_).mp hb
    · intro x
      rw [setText_valid]
    · intro x
      exact setText_name _ _ v x
  obtain ⟨hval, hpsne, hlen, hnm⟩ := hb₁
  rcases (ac₄ b).mp hval with hold | ⟨hpf, hDb⟩
  · exfalso
    refine hnone b ⟨hold, hpsne, hlen, fun r hr => ?_⟩
    have hpr : pfx (b.take (b.length - ps.length + r + 1)) b := pfx_take b _
    have hvp : (t.get? (b.take (b.length - ps.length + r + 1))).isSome = true :=
      isSome_of_pfx hpr hold
    have hpres := (ac₃ _ hvp).2.1
    rw [← hpres]
    exact hnm r hr
  · by_contra hne
    have hLf : b.length ≤ (appendChain t D rs).2.length := pfx_length hpf
    have hLltf : b.length < (appendChain t D rs).2.length := by
      rcases Nat.lt_or_ge b.length (appendChain t D rs).2.length with h | h
      · exact h
      · exact absurd (pfx_eq_of_length_le hpf h) hne
    have hflen : (appendChain t D rs).2.length = D.length + rs.length := ac₂
    have hn : ps.length = qs.length + rs.length := by rw [hsplit]; simp
    by_cases hq0 : qs = []
    · exfalso
      rw [hq0] at hdt hn
      simp only [List.length_nil, Nat.zero_add] at hn
      have hD : D = [] := hdt
      subst hD
      simp only [List.length_nil, Nat.zero_add] at hflen
      omega
    · have hql : 1 ≤ qs.length := by
        have := List.length_pos.mpr hq0
        omega
      -- the dominated chain of prefixes of D
      have hname_t : ∀ r, r < D.length + ps.length - b.length → ∀ (hrn : r < ps.length),
          nameAt t (D.take (b.length - ps.length + r + 1)) =
            some (ps.get ⟨r, hrn⟩) := by
        intro r hr hrn
        have hx : b.length - ps.length + r + 1 ≤ D.length := by omega
        have hxb : b.length - ps.length + r + 1 ≤ b.length := by omega
        have hbt : b.take (b.length - ps.length + r + 1) =
            (appendChain t D rs).2.take (b.length - ps.length + r + 1) :=
          take_eq_take_of_pfx hpf hxb
        have hDt : D.take (b.length - ps.length + r + 1) =
            (appendChain t D rs).2.take (b.length - ps.length + r + 1) :=
          take_eq_take_of_pfx ac₁ hx
        have hvp : (t.get? (D.take (b.length - ps.length + r + 1))).isSome = true :=
          isSome_of_pfx (pfx_take D _) hvD
        have hpres := (ac₃ _ hvp).2.1
        have := hnm r (by omega)
        rw [hbt, ← hDt] at this
        rw [← hpres]
        exact this
      have hdom := dom_aux qs [] D
        (fun r => D.take (b.length - ps.length + r + 1)) hdt
        (fun r hr => by
          have h₁ := hname_t r (by omega) (by omega)
          rw [h₁]
          have e₃ : ps[r]? = qs[r]? := by
            rw [hsplit]
            exact List.getElem?_append_left hr
          rw [List.get_eq_getElem, List.get_eq_getElem,
            ← List.getElem?_eq_getElem (by omega : r < ps.length),
            ← List.getElem?_eq_getElem hr]
          exact e₃)
        (fun r hr => by
          constructor
          · rw [List.length_take, List.length_take]
            omega
          · exact pfx_take_le D (by omega))
        (fun r hr => pfx_take D _)
        (fun hne₀ => ⟨trivial, by
          intro hcon
          have hcon' : ([] : Addr) = D.take (b.length - ps.length + 0 + 1) := hcon
          have hlt : (D.take (b.length - ps.length + 0 + 1)).length = 0 := by
            rw [← hcon']
            rfl
          rw [List.length_take] at hlt
          omega⟩)
        hq0
      have hdl := pfx_length hdom
      rw [List.length_take] at hdl
      omega

theorem head?_none_iff {l : List Addr} : l.head? = none ↔ l = [] := by
  cases l <;> simp

theorem head?_eq_cons {l : List Addr} {x : Addr} (h : l.head? = some x) :
    ∃ tl, l = x :: tl := by
  cases l with
  | nil => cases h
  | cons y ys =>
    injection h with h
    exact ⟨ys, by rw [h]⟩

theorem appendChain_new_invalid : ∀ (rs : List String) (t : Elem) (D : Addr),
    (t.get? D).isSome = true →
    ∀ x, pfx x (appendChain t D rs).2 → D.length < x.length →
    (t.get? x).isSome = false := by
  intro rs
  induction rs with
  | nil =>
    intro t D hv x hx hl
    have hnil : (appendChain t D []).2 = D := rfl
    rw [hnil] at hx
    exact absurd (pfx_length hx) (by omega)
  | cons r rs' ih =>
    intro t D hv x hx hl
    have heq : appendChain t D (r :: rs') =
        appendChain (appendAt t D (Elem.node r none [])) (D ++ [childCountAt t D]) rs' := rfl
    rw [heq] at hx
    have hg₂ : (appendAt t D (Elem.node r none [])).get? (D ++ [childCountAt t D])
        = some (Elem.node r none []) := by
      have := append_new_get t D (Elem.node r none []) [] hv
      simpa using this
    have hv₂ : ((appendAt t D (Elem.node r none [])).get? (D ++ [childCountAt t D])).isSome
        = true := by rw [hg₂]; rfl
    have hpD₂ : pfx (D ++ [childCountAt t D])
        (appendChain (appendAt t D (Elem.node r none [])) (D ++ [childCountAt t D]) rs').2 :=
      (appendChain_spec rs' _ _ hv₂).1
    rcases Nat.lt_or_ge (D.length + 1) x.length with hgt | hle
    · have h₁ := ih _ _ hv₂ x hx (by simp; omega)
      cases hg : t.get? x with
      | none => rfl
      | some s =>
        have h₂ : ((appendAt t D (Elem.node r none [])).get? x).isSome = true :=
          append_valid_old hv (by rw [hg]; rfl)
        rw [h₁] at h₂
        cases h₂
    · have hxl : x.length = D.length + 1 := by omega
      have hx2 : x = D ++ [childCountAt t D] := by
        have h₁ := pfx_take_iff.mp hx
        have h₂ := pfx_take_iff.mp hpD₂
        rw [show (D ++ [childCountAt t D]).length = x.length by simp; omega] at h₂
        rw [h₁] at h₂
        exact h₂
      cases hsD : t.get? D with
      | none => rw [hsD] at hv; cases hv
      | some s =>
        rw [hx2, append_cnt_invalid hsD]
        rfl

theorem cp_pure {T : Elem} : ∀ {qs : List String} {base f : Addr},
    descendsTo T base qs f → createPath T base qs = (T, f) := by
  intro qs
  induction qs with
  | nil =>
    intro base f h
    have : f = base := h
    rw [this]
    rfl
  | cons q qs' ih =>
    rintro base f ⟨a, ha, hrest⟩
    rw [show createPath T base (q :: qs') = createPath T a qs' by simp [createPath, ha]]
    exact ih hrest

/-!
## Retrace: a second `_upsert_text` call finds the freshly created chain
-/

theorem pfx_of_common_le {x y z : Addr} (h₁ : pfx x z) (h₂ : pfx y z)
    (hl : x.length ≤ y.length) : pfx x y := by
  rcases pfx_total_of_common h₁ h₂ with h | h
  · exact h
  · have hyx := pfx_eq_of_length_le h hl
    rw [hyx]
    exact pfx_refl x

theorem descHits_head_appendChain {t : Elem} (rs : List String) {D base : Addr} {nm : String}
    {a : Addr} (hvD : (t.get? D).isSome = true)
    (ha : (descHits t base nm).head? = some a) (haD : pfx a D) :
    (descHits (appendChain t D rs).1 base nm).head? = some a := by
  obtain ⟨ac₁, ac₂, ac₃, ac₄, ac₅⟩ := appendChain_spec rs t D hvD
  obtain ⟨hpb, hne, hnmA⟩ := descHits_head ha
  have hvA : (t.get? a).isSome = true := valid_of_nameAt hnmA
  refine head_eq_of_min (pairwise_descHits _ base nm) ?_ ?_
  · exact mem_descHits.mpr ⟨hpb, hne, by rw [(ac₃ a hvA).2.1]; exact hnmA⟩
  · intro y hy
    obtain ⟨hpy, hney, hnmy⟩ := mem_descHits.mp hy
    have hvy : (((appendChain t D rs).1.get? y)).isSome = true := valid_of_nameAt hnmy
    rcases (ac₄ y).mp hvy with hold | ⟨hpf, hDy⟩
    · have hyold : y ∈ descHits t base nm :=
        mem_descHits.mpr ⟨hpy, hney, by rw [← (ac₃ y hold).2.1]; exact hnmy⟩
      obtain ⟨tl, htl⟩ := head?_eq_cons ha
      exact sorted_head_min (pairwise_descHits t base nm) htl hyold
    · have hpaf : pfx a (appendChain t D rs).2 := pfx_trans haD ac₁
      have hla : a.length ≤ D.length := pfx_length haD
      have hpay : pfx a y := pfx_of_common_le hpaf hpf (by omega)
      refine Or.inr (lexLt_of_pfx hpay ?_)
      intro hcon
      subst hcon
      omega

theorem retrace_old {t : Elem} (rs : List String) {D : Addr}
    (hvD : (t.get? D).isSome = true) :
    ∀ {qs : List String} {base : Addr}, descendsTo t base qs D →
    descendsTo (appendChain t D rs).1 base qs D := by
  intro qs
  induction qs with
  | nil => intro base h; exact h
  | cons q qs' ih =>
    rintro base ⟨a, ha, hrest⟩
    exact ⟨a, descHits_head_appendChain rs hvD ha (dt_pfx hrest), ih hrest⟩

theorem retrace_new_aux {t : Elem} (rs : List String) {D : Addr}
    (hvD : (t.get? D).isSome = true)
    (hfail : ∀ r rs0, rs = r :: rs0 → (descHits t D r).head? = none) :
    ∀ j k, k + j = rs.length →
      descendsTo (appendChain t D rs).1
        ((appendChain t D rs).2.take (D.length + k)) (rs.drop k) (appendChain t D rs).2 := by
  obtain ⟨ac₁, ac₂, ac₃, ac₄, ac₅⟩ := appendChain_spec rs t D hvD
  intro j
  induction j with
  | zero =>
    intro k hk
    have hk' : k = rs.length := by omega
    subst hk'
    rw [List.drop_length]
    show (appendChain t D rs).2 = (appendChain t D rs).2.take (D.length + rs.length)
    rw [← ac₂, List.take_length]
  | succ j' ih =>
    intro k hk
    have hklt : k < rs.length := by omega
    rw [List.drop_eq_getElem_cons hklt]
    refine ⟨(appendChain t D rs).2.take (D.length + k + 1), ?_, ih (k + 1) (by omega)⟩
    have hx₅ := ac₅ k hklt
    have hlen₁ : ((appendChain t D rs).2.take (D.length + k + 1)).length = D.length + k + 1 := by
      rw [List.length_take, ac₂]
      omega
    have hlen₀ : ((appendChain t D rs).2.take (D.length + k)).length = D.length + k := by
      rw [List.length_take, ac₂]
      omega
    refine head_eq_of_min (pairwise_descHits _ _ _) ?_ ?_
    · refine mem_descHits.mpr ⟨pfx_take_le _ (by omega), ?_, hx₅.1⟩
      intro hcon
      rw [hcon] at hlen₁
      omega
    · intro y hy
      obtain ⟨hpy, hney, hnmy⟩ := mem_descHits.mp hy
      have hvy := valid_of_nameAt hnmy
      rcases (ac₄ y).mp hvy with hold | ⟨hpf, hDy⟩
      · exfalso
        rcases Nat.eq_zero_or_pos k with hk0 | hkpos
        · subst hk0
          have hD : (appendChain t D rs).2.take (D.length + 0) = D := by
            rw [Nat.add_zero]
            exact pfx_take_iff.mp ac₁
          rw [hD] at hpy hney
          have hmem : y ∈ descHits t D rs[0] :=
            mem_descHits.mpr ⟨hpy, hney, by rw [← (ac₃ y hold).2.1]; exact hnmy⟩
          have h0lt : (0 : Nat) < rs.length := hklt
          have hrs0 := List.drop_eq_getElem_cons h0lt
          rw [List.drop_zero] at hrs0
          have hhd := hfail _ _ hrs0
          rw [head?_none_iff.mp hhd] at hmem
          cases hmem
        · have hcur : pfx ((appendChain t D rs).2.take (D.length + k))
              (appendChain t D rs).2 := pfx_take _ _
          have hinv := appendChain_new_invalid rs t D hvD _ hcur (by rw [hlen₀]; omega)
          have hcv := isSome_of_pfx hpy hold
          rw [hinv] at hcv
          cases hcv
      · have hky : D.length + k < y.length := by
          have h₁ := pfx_length hpy
          rw [hlen₀] at h₁
          rcases Nat.lt_or_ge (D.length + k) y.length with h | h
          · exact h
          · exact absurd (pfx_eq_of_length_le hpy (by rw [hlen₀]; omega)).symm hney
        have hpxy : pfx ((appendChain t D rs).2.take (D.length + k + 1)) y :=
          pfx_of_common_le (pfx_take _ _) hpf (by rw [hlen₁]; omega)
        rcases eq_or_ne ((appendChain t D rs).2.take (D.length + k + 1)) y with he | hne2
        · exact Or.inl he
        · exact Or.inr (lexLt_of_pfx hpxy hne2)

theorem dt_append {T : Elem} : ∀ {qs rs : List String} {a b c : Addr},
    descendsTo T a qs b → descendsTo T b rs c → descendsTo T a (qs ++ rs) c := by
  intro qs
  induction qs with
  | nil =>
    intro rs a b c h₁ h₂
    have hba : b = a := h₁
    subst hba
    exact h₂
  | cons q qs' ih =>
    rintro rs a b c ⟨x, hx, hrest⟩ h₂
    exact ⟨x, hx, ih hrest h₂⟩

theorem retrace {t : Elem} {ps qs rs : List String} {D : Addr}
    (hsplit : ps = qs ++ rs)
    (hdt : descendsTo t [] qs D)
    (hfail : ∀ r rs0, rs = r :: rs0 → (descHits t D r).head? = none) :
    descendsTo (appendChain t D rs).1 [] ps (appendChain t D rs).2 := by
  have hvroot : (t.get? ([] : Addr)).isSome = true := by cases t; rfl
  have hvD : (t.get? D).isSome = true := dt_valid hvroot hdt
  obtain ⟨ac₁, ac₂, ac₃, ac₄, ac₅⟩ := appendChain_spec rs t D hvD
  subst hsplit
  refine dt_append (retrace_old rs hvD hdt) ?_
  have h0 := retrace_new_aux rs hvD hfail rs.length 0 (by omega)
  have hD : (appendChain t D rs).2.take (D.length + 0) = D := by
    rw [Nat.add_zero]
    exact pfx_take_iff.mp ac₁
  rw [hD, List.drop_zero] at h0
  exact h0

theorem descendsTo_congr {t₁ t₂ : Elem}
    (h : ∀ base nm, descHits t₁ base nm = descHits t₂ base nm) :
    ∀ {qs : List String} {base D : Addr}, descendsTo t₁ base qs D → descendsTo t₂ base qs D := by
  intro qs
  induction qs with
  | nil => intro base D hd; exact hd
  | cons q qs' ih =>
    rintro base D ⟨a, ha, hrest⟩
    exact ⟨a, by rw [← h]; exact ha, ih hrest⟩

theorem appendChain_tip_valid {t : Elem} (rs : List String) {D : Addr}
    (hvD : (t.get? D).isSome = true) :
    ((appendChain t D rs).1.get? (appendChain t D rs).2).isSome = true := by
  obtain ⟨ac₁, ac₂, ac₃, ac₄, ac₅⟩ := appendChain_spec rs t D hvD
  cases rs with
  | nil => exact (ac₃ D hvD).1
  | cons r rs0 =>
    exact (ac₄ _).mpr (Or.inr ⟨pfx_refl _, by rw [ac₂, List.length_cons]; omega⟩)

theorem chainHits_nil (t : Elem) : chainHits t [] = [] := by
  apply eq_nil_of_no_mem
  intro x hx
  exact (mem_chainHits.mp hx).2.1 rfl

theorem upsert_idem (t : Elem) (ps : List String) (v : String) :
    upsertText (upsertText t ps v) ps v = upsertText t ps v := by
  cases hh : (chainHits t ps).head? with
  | some a =>
    have ha : chainMatch t ps a := mem_chainHits.mp (head?_mem hh)
    have h₁ : upsertText t ps v = setTextAt t a v := by
      simp only [upsertText, hh]
    have hh₂ : (chainHits (setTextAt t a v) ps).head? = some a := by
      rw [setText_chainHits]
      exact hh
    rw [h₁]
    have h₂ : upsertText (setTextAt t a v) ps v = setTextAt (setTextAt t a v) a v := by
      simp only [upsertText, hh₂]
    rw [h₂]
    exact setText_absorb _ _ _ (setText_text_self t a v ha.1)
  | none =>
    cases hps : ps with
    | nil =>
      have h₁ : upsertText t [] v = t := by
        simp [upsertText, chainHits_nil]
      rw [h₁, h₁]
    | cons p ps' =>
      rw [hps] at hh
      obtain ⟨qs, hsplit, hdt, hfailr⟩ := @dp_spec t (p :: ps') ([] : Addr)
      have hvroot : (t.get? ([] : Addr)).isSome = true := by cases t; rfl
      have hvD : (t.get? (descendPhase t [] (p :: ps')).1).isSome = true := dt_valid hvroot hdt
      have hcp : createPath t [] (p :: ps') =
          appendChain t (descendPhase t [] (p :: ps')).1 (descendPhase t [] (p :: ps')).2 :=
        cp_main (p :: ps') [] hvroot
      have hnil₁ : chainHits t (p :: ps') = [] := head?_none_iff.mp hh
      have hnone : ∀ a, ¬ chainMatch t (p :: ps') a := by
        intro a hca
        have hmem : a ∈ chainHits t (p :: ps') := mem_chainHits.mpr hca
        rw [hnil₁] at hmem
        cases hmem
      have h₁ : upsertText t (p :: ps') v =
          setTextAt (appendChain t (descendPhase t [] (p :: ps')).1
              (descendPhase t [] (p :: ps')).2).1
            (appendChain t (descendPhase t [] (p :: ps')).1
              (descendPhase t [] (p :: ps')).2).2 v := by
        simp only [upsertText, hh, hcp]
      rw [h₁]
      by_cases hm : chainMatch
          (setTextAt (appendChain t (descendPhase t [] (p :: ps')).1
              (descendPhase t [] (p :: ps')).2).1
            (appendChain t (descendPhase t [] (p :: ps')).1
              (descendPhase t [] (p :: ps')).2).2 v) (p :: ps')
          (appendChain t (descendPhase t [] (p :: ps')).1
            (descendPhase t [] (p :: ps')).2).2
      · have hhead : (chainHits
            (setTextAt (appendChain t (descendPhase t [] (p :: ps')).1
                (descendPhase t [] (p :: ps')).2).1
              (appendChain t (descendPhase t [] (p :: ps')).1
                (descendPhase t [] (p :: ps')).2).2 v) (p :: ps')).head? =
            some (appendChain t (descendPhase t [] (p :: ps')).1
              (descendPhase t [] (p :: ps')).2).2 := by
          refine head_eq_of_min (pairwise_chainHits _ _) (mem_chainHits.mpr hm) ?_
          intro y hy
          exact Or.inl (no_new_chain_match hsplit hdt hnone (mem_chainHits.mp hy)).symm
        simp only [upsertText, hhead]
        exact setText_absorb _ _ _
          (setText_text_self _ _ _ (appendChain_tip_valid _ hvD))
      · have hnil₂ : chainHits
            (setTextAt (appendChain t (descendPhase t [] (p :: ps')).1
                (descendPhase t [] (p :: ps')).2).1
              (appendChain t (descendPhase t [] (p :: ps')).1
                (descendPhase t [] (p :: ps')).2).2 v) (p :: ps') = [] := by
          apply eq_nil_of_no_mem
          intro x hx
          have hx' := mem_chainHits.mp hx
          have hxf := no_new_chain_match hsplit hdt hnone hx'
          rw [hxf] at hx'
          exact hm hx'
        have hh₂ : (chainHits
            (setTextAt (appendChain t (descendPhase t [] (p :: ps')).1
                (descendPhase t [] (p :: ps')).2).1
              (appendChain t (descendPhase t [] (p :: ps')).1
                (descendPhase t [] (p :: ps')).2).2 v) (p :: ps')).head? = none := by
          rw [hnil₂]
          rfl
        have hdt₂ : descendsTo
            (setTextAt (appendChain t (descendPhase t [] (p :: ps')).1
                (descendPhase t [] (p :: ps')).2).1
              (appendChain t (descendPhase t [] (p :: ps')).1
                (descendPhase t [] (p :: ps')).2).2 v) [] (p :: ps')
            (appendChain t (descendPhase t [] (p :: ps')).1
              (descendPhase t [] (p :: ps')).2).2 := by
          refine descendsTo_congr (fun base nm => (setText_descHits _ _ _ base nm).symm) ?_
          exact retrace hsplit hdt hfailr
        have hcp₂ := cp_pure hdt₂
        simp only [upsertText, hh₂, hcp₂]
        exact setText_absorb _ _ _
          (setText_text_self _ _ _ (appendChain_tip_valid _ hvD))

/-!
## `_upsert_text` never creates duplicate same-name siblings
-/

theorem kidNames_invalid {t : Elem} {b : Addr} (h : t.get? b = none) : kidNames t b = [] := by
  unfold kidNames
  rw [h]
  rfl

theorem kidNames_child_name {t : Elem} {D : Addr} {r : String}
    (h : 0 < ((kidNames t D).count r)) :
    ∃ j, nameAt t (D ++ [j]) = some r := by
  unfold kidNames at h
  cases hg : t.get? D with
  | none => rw [hg] at h; simp at h
  | some s =>
    cases s with
    | node n tx cs =>
      rw [hg] at h
      have h2 : 0 < (cs.map nameOf).count r := h
      have hmem : r ∈ cs.map nameOf := List.count_pos_iff.mp h2
      obtain ⟨c, hcmem, hcname⟩ := List.mem_map.mp hmem
      obtain ⟨j, hj, hcj⟩ := List.getElem_of_mem hcmem
      refine ⟨j, ?_⟩
      unfold nameAt
      rw [get?_append, hg]
      show (((Elem.node n tx cs).get? [j])).map nameOf = some r
      rw [get?_cons, List.getElem?_eq_getElem hj, hcj]
      cases c with
      | node cn ct cc =>
        show some cn = some r
        rw [← hcname]
        rfl

theorem appendChain_count : ∀ (rs : List String) (t : Elem) (D : Addr),
    (t.get? D).isSome = true →
    (∀ r rs0, rs = r :: rs0 → descHits t D r = []) →
    ∀ b nm, ((kidNames (appendChain t D rs).1 b).count nm) ≤
      max ((kidNames t b).count nm) 1 := by
  intro rs
  induction rs with
  | nil =>
    intro t D hv hf b nm
    exact Nat.le_max_left _ _
  | cons r rs' ih =>
    intro t D hv hf b nm
    have heq : appendChain t D (r :: rs') =
        appendChain (appendAt t D (Elem.node r none [])) (D ++ [childCountAt t D]) rs' := rfl
    rw [heq]
    have hg₂ : (appendAt t D (Elem.node r none [])).get? (D ++ [childCountAt t D])
        = some (Elem.node r none []) := by
      have := append_new_get t D (Elem.node r none []) [] hv
      simpa using this
    have hv₂ : ((appendAt t D (Elem.node r none [])).get? (D ++ [childCountAt t D])).isSome
        = true := by rw [hg₂]; rfl
    have hf₂ : ∀ x xs0, rs' = x :: xs0 →
        descHits (appendAt t D (Elem.node r none [])) (D ++ [childCountAt t D]) x = [] := by
      intro x xs0 hx
      apply eq_nil_of_no_mem
      intro y hy
      obtain ⟨hpy, hney, hnmy⟩ := mem_descHits.mp hy
      have hvy := valid_of_nameAt hnmy
      rcases (append_leaf_valid_iff hv r y).mp hvy with hold | hyD₂
      · cases hs : t.get? D with
        | none => rw [hs] at hv; cases hv
        | some s =>
          have hD₂inv := append_cnt_invalid hs
          have hcv := isSome_of_pfx hpy hold
          rw [hD₂inv] at hcv
          cases hcv
      · exact hney hyD₂
    have hmain := ih (appendAt t D (Elem.node r none [])) (D ++ [childCountAt t D]) hv₂ hf₂ b nm
    refine hmain.trans ?_
    by_cases hbD : b = D
    · subst hbD
      rw [append_kidNames_self _ hv]
      by_cases hnr : nm = r
      · subst hnr
        have hzero : (kidNames t b).count nm = 0 := by
          by_contra hpos
          obtain ⟨j, hj⟩ := kidNames_child_name (Nat.pos_of_ne_zero hpos)
          have hmem : (b ++ [j]) ∈ descHits t b nm :=
            mem_descHits.mpr ⟨pfx_append _ _, by simp, hj⟩
          rw [hf nm rs' rfl] at hmem
          cases hmem
        have hc : (kidNames t b ++ [nameOf (Elem.node nm none [])]).count nm =
            (kidNames t b).count nm + 1 := by
          rw [List.count_append]
          simp [nameOf]
        rw [hc, hzero]
        omega
      · have h0 : ([nameOf (Elem.node r none [])] : List String).count nm = 0 :=
          List.count_eq_zero.mpr (by simp [nameOf]; exact hnr)
        have hc : (kidNames t b ++ [nameOf (Elem.node r none [])]).count nm =
            (kidNames t b).count nm := by
          rw [List.count_append, h0]
          omega
        rw [hc]
    · cases hvb : t.get? b with
      | none =>
        by_cases hbD₂ : b = D ++ [childCountAt t D]
        · subst hbD₂
          have hk2 : kidNames (appendAt t D (Elem.node r none []))
              (D ++ [childCountAt t D]) = [] := by
            unfold kidNames
            rw [hg₂]
            rfl
          rw [hk2, kidNames_invalid hvb]
        · have hinv₂ : (appendAt t D (Elem.node r none [])).get? b = none := by
            cases hq : (appendAt t D (Elem.node r none [])).get? b with
            | none => rfl
            | some w =>
              have hsome : ((appendAt t D (Elem.node r none [])).get? b).isSome = true := by
                rw [hq]; rfl
              rcases (append_leaf_valid_iff hv r b).mp hsome with h1 | h1
              · rw [hvb] at h1; cases h1
              · exact absurd h1 hbD₂
          rw [kidNames_invalid hinv₂]
          have hz : ([] : List String).count nm = 0 := rfl
          rw [hz]
          omega
      | some s =>
        have hvb' : (t.get? b).isSome = true := by rw [hvb]; rfl
        rw [append_kidNames_old hv hvb' hbD]

theorem upsert_count (t : Elem) (ps : List String) (v : String) (b : Addr) (nm : String) :
    ((kidNames (upsertText t ps v) b).count nm) ≤ max ((kidNames t b).count nm) 1 := by
  cases hh : (chainHits t ps).head? with
  | some a =>
    have h₁ : upsertText t ps v = setTextAt t a v := by simp only [upsertText, hh]
    rw [h₁, setText_kidNames]
    exact Nat.le_max_left _ _
  | none =>
    cases hps : ps with
    | nil =>
      have h₁ : upsertText t [] v = t := by simp [upsertText, chainHits_nil]
      rw [h₁]
      exact Nat.le_max_left _ _
    | cons p ps' =>
      obtain ⟨qs, hsplit, hdt, hfailr⟩ := @dp_spec t (p :: ps') ([] : Addr)
      have hvroot : (t.get? ([] : Addr)).isSome = true := by cases t; rfl
      have hvD : (t.get? (descendPhase t [] (p :: ps')).1).isSome = true := dt_valid hvroot hdt
      have hcp := cp_main (p :: ps') ([] : Addr) hvroot
      rw [hps] at hh
      have h₁ : upsertText t (p :: ps') v =
          setTextAt (appendChain t (descendPhase t [] (p :: ps')).1
              (descendPhase t [] (p :: ps')).2).1
            (appendChain t (descendPhase t [] (p :: ps')).1
              (descendPhase t [] (p :: ps')).2).2 v := by
        simp only [upsertText, hh, hcp]
      rw [h₁, setText_kidNames]
      refine appendChain_count _ t _ hvD ?_ b nm
      intro r rs0 hr
      exact head?_none_iff.mp (hfailr r rs0 hr)

/-!
## Helper lemmas for the claim theorems
-/

theorem enrichXml_encodingUsed (doc : Elem) (e : Option String)
    (table : List (String × Commande)) :
    (enrichXml doc e table).encodingUsed = outputEncoding e := by
  simp only [enrichXml]
  split
  · rfl
  · split <;> rfl

theorem getLastD_mem : ∀ (l : List String) (d : String), l ≠ [] → l.getLastD d ∈ l := by
  intro l
  induction l with
  | nil => intro d h; exact absurd rfl h
  | cons x xs ih =>
    intro d h
    cases hxs : xs with
    | nil => simp [List.getLastD]
    | cons y ys =>
      rw [List.getLastD_cons]
      rw [hxs] at ih
      exact List.mem_cons_of_mem x (ih x (List.cons_ne_nil y ys))

theorem strTrim_pad (wl wr : List Char) (s : String)
    (hwl : ∀ c ∈ wl, isWsChar c) (hwr : ∀ c ∈ wr, isWsChar c) :
    strTrim (String.mk (wl ++ (s.toList ++ wr))) = strTrim s := by
  unfold strTrim
  show String.mk ((((wl ++ (s.toList ++ wr)).dropWhile isWsChar).reverse.dropWhile
      isWsChar).reverse) = _
  rw [List.dropWhile_append_of_pos hwl]
  cases hd : s.toList.dropWhile isWsChar with
  | nil =>
    have hall : ∀ x ∈ s.toList, isWsChar x := List.dropWhile_eq_nil_iff.mp hd
    rw [List.dropWhile_append_of_pos hall,
      show wr.dropWhile isWsChar = [] from List.dropWhile_eq_nil_iff.mpr hwr]
  | cons c cs =>
    rw [List.dropWhile_append, hd]
    show String.mk (((if ((c :: cs).isEmpty) = true then wr.dropWhile isWsChar
        else c :: cs ++ wr).reverse.dropWhile isWsChar).reverse) = _
    rw [if_neg (by simp)]
    rw [show (c :: cs ++ wr : List Char).reverse = wr.reverse ++ (c :: cs).reverse from by
      rw [← List.reverse_append]]
    rw [List.dropWhile_append_of_pos (fun x hx => hwr x (List.mem_reverse.mp hx))]

theorem resolveRecord_pad (table : List (String × Commande)) (wl wr : List Char) (s : String)
    (hwl : ∀ c ∈ wl, isWsChar c) (hwr : ∀ c ∈ wr, isWsChar c) :
    resolveRecord table (String.mk (wl ++ (s.toList ++ wr))) = resolveRecord table s := by
  unfold resolveRecord
  rw [strTrim_pad wl wr s hwl hwr]

theorem classifPattern_ne_empty {s : String} (h : classifPattern s = true) :
    (s != "") = true := by
  refine bne_iff_ne.mpr ?_
  intro hcon
  rw [hcon] at h
  exact absurd h (by decide)

theorem gcfl_inv (t : Elem) :
    (∃ c, getClassificationFromLevel t = (some c, "copié depuis PositionLevel", true) ∧
       classifPattern c = true ∧ (c != "") = true) ∨
    getClassificationFromLevel t = (none, "", false) := by
  rcases hh : (chainHits t levelPath).head? with _ | a
  · exact Or.inr (by simp [getClassificationFromLevel, hh])
  · rcases ht : textAtNode t a with _ | s
    · exact Or.inr (by simp [getClassificationFromLevel, hh, ht])
    · by_cases h1 : (s != "") = true
      · by_cases h2 : classifPattern (strTrim s) = true
        · exact Or.inl ⟨strTrim s,
            by simp [getClassificationFromLevel, hh, ht, h1, h2], h2, classifPattern_ne_empty h2⟩
        · exact Or.inr (by simp [getClassificationFromLevel, hh, ht, h1, h2])
      · exact Or.inr (by simp [getClassificationFromLevel, hh, ht, h1])

theorem findPat_shape (p₁ p₂ : Char) : ∀ (l : List Char) (s : String),
    findPat p₁ p₂ l = some s →
    ∃ ds, s = String.mk (p₁ :: p₂ :: ds) ∧ ds.length = 6 ∧ ds.all isAsciiDigit = true := by
  intro l
  induction l with
  | nil => intro s h; cases h
  | cons a l' ih =>
    intro s h
    cases l' with
    | nil => cases h
    | cons b rest =>
      unfold findPat at h
      by_cases hc : (a == p₁ && b == p₂ && decide (6 ≤ rest.length)
          && (rest.take 6).all isAsciiDigit) = true
      · rw [if_pos hc] at h
        injection h with h
        have hsplit := hc
        rw [Bool.and_eq_true, Bool.and_eq_true, Bool.and_eq_true] at hsplit
        obtain ⟨⟨⟨h1, h2⟩, h3⟩, h4⟩ := hsplit
        refine ⟨rest.take 6, ?_, ?_, h4⟩
        · rw [← h, eq_of_beq h1, eq_of_beq h2]
        · rw [List.length_take]
          have := of_decide_eq_true h3
          omega
      · rw [if_neg hc] at h
        exact ih s h

theorem extract_shape {s r : String} (h : extractOrderIdFromText s = some r) :
    acceptedOrderId r = true := by
  unfold extractOrderIdFromText at h
  have hgen : ∀ (p₁ p₂ : Char), ((p₁ == 'R' && p₂ == 'T') || (p₁ == 'C' && p₂ == 'R')
        || (p₁ == 'C' && p₂ == 'D')) = true →
      ∀ l, findPat p₁ p₂ l = some r → acceptedOrderId r = true := by
    intro p₁ p₂ hp l hf
    obtain ⟨ds, rfl, hlen, hall⟩ := findPat_shape p₁ p₂ l r hf
    show acceptedOrderId (String.mk (p₁ :: p₂ :: ds)) = true
    unfold acceptedOrderId
    show (((p₁ == 'R' && p₂ == 'T') || (p₁ == 'C' && p₂ == 'R') || (p₁ == 'C' && p₂ == 'D'))
        && decide (ds.length = 6) && ds.all isAsciiDigit) = true
    rw [hp, hall, hlen]
    rfl
  cases hRT : findPat 'R' 'T' s.toList with
  | some x =>
    rw [hRT] at h
    injection h with h
    subst h
    exact hgen 'R' 'T' (by decide) _ hRT
  | none =>
    rw [hRT] at h
    cases hCR : findPat 'C' 'R' s.toList with
    | some x =>
      rw [hCR] at h
      injection h with h
      subst h
      exact hgen 'C' 'R' (by decide) _ hCR
    | none =>
      rw [hCR] at h
      exact hgen 'C' 'D' (by decide) _ h

theorem extractContract_accepted {doc : Elem} {ctx : Addr} {info : ContractInfo}
    (h : extractContract doc ctx = some info) : acceptedOrderId info.order_id = true := by
  unfold extractContract at h
  cases h₀ : doc.get? ctx with
  | none => simp only [h₀] at h; cases h
  | some sub =>
    simp only [h₀] at h
    cases h₁ : (chainHits sub ["ReferenceInformation"]).head? with
    | none => simp only [h₁] at h; cases h
    | some rA =>
      simp only [h₁] at h
      cases h₂ : sub.get? rA with
      | none => simp only [h₂] at h; cases h
      | some ref =>
        simp only [h₂] at h
        cases h₃ : (childPairHits ref "OrderId" "IdValue").head? with
        | none => simp only [h₃] at h; cases h
        | some oidA =>
          simp only [h₃] at h
          cases h₄ : textAtNode ref oidA with
          | none => simp only [h₄] at h; cases h
          | some txt =>
            simp only [h₄] at h
            by_cases h₅ : (txt == "") = true
            · rw [if_pos h₅] at h; cases h
            · rw [if_neg h₅] at h
              cases h₆ : extractOrderIdFromText (strTrim txt) with
              | none => simp only [h₆] at h; cases h
              | some oid =>
                simp only [h₆] at h
                injection h with h
                rw [← h]
                exact extract_shape h₆

theorem locate_accepted {doc : Elem} {info : ContractInfo} (h : info ∈ locate doc) :
    acceptedOrderId info.order_id = true := by
  unfold locate at h
  obtain ⟨ctx, hmem, hx⟩ := List.mem_filterMap.mp h
  exact extractContract_accepted hx

theorem stepContract_matched (table : List (String × Commande)) (doc : Elem)
    (info : ContractInfo) :
    (stepContract table doc info).matched = (lookupTable table info.order_id).isSome := by
  cases hL : lookupTable table info.order_id with
  | some cmd =>
    cases hG : doc.get? info.ctx <;> simp [stepContract, hL, hG]
  | none =>
    cases hG : doc.get? info.ctx with
    | some sub =>
      cases hF : (applyClassificationFallback sub).2 <;> simp [stepContract, hL, hG, hF]
    | none => simp [stepContract, hL, hG]

theorem foldStep_total (table : List (String × Commande)) (acc : Elem × RunStats)
    (info : ContractInfo) : (foldStep table acc info).2.total = acc.2.total := rfl

theorem foldStep_details (table : List (String × Commande)) (acc : Elem × RunStats)
    (info : ContractInfo) :
    (foldStep table acc info).2.details.length = acc.2.details.length + 1 := by
  show (acc.2.details ++ [(stepContract table acc.1 info).detail]).length = _
  simp

theorem foldStep_enrichis (table : List (String × Commande)) (acc : Elem × RunStats)
    (info : ContractInfo) :
    (foldStep table acc info).2.enrichis =
      acc.2.enrichis + (if (lookupTable table info.order_id).isSome then 1 else 0) := by
  show acc.2.enrichis + (if (stepContract table acc.1 info).matched then 1 else 0) = _
  rw [stepContract_matched]

theorem enrich_fold_stats (table : List (String × Commande)) :
    ∀ (l : List ContractInfo) (acc : Elem × RunStats),
    ((l.foldl (foldStep table) acc).2.enrichis
      = acc.2.enrichis + l.countP (fun i => (lookupTable table i.order_id).isSome)) ∧
    ((l.foldl (foldStep table) acc).2.total = acc.2.total) ∧
    ((l.foldl (foldStep table) acc).2.details.length
      = acc.2.details.length + l.length) := by
  intro l
  induction l with
  | nil =>
    intro acc
    refine ⟨by simp, rfl, by simp⟩
  | cons i l' ih =>
    intro acc
    rw [List.foldl_cons]
    obtain ⟨ih₁, ih₂, ih₃⟩ := ih (foldStep table acc i)
    refine ⟨?_, ?_, ?_⟩
    · rw [ih₁, foldStep_enrichis, List.countP_cons]
      omega
    · rw [ih₂, foldStep_total]
    · rw [ih₃, foldStep_details, List.length_cons]
      omega

theorem chainMatch_last_name {t : Elem} {ps : List String} {a : Addr}
    (h : chainMatch t ps a) : ∃ nm, nameAt t a = some nm ∧ nm ∈ ps := by
  obtain ⟨hval, hpsne, hlen, hnm⟩ := h
  have hpos : 0 < ps.length := List.length_pos.mpr hpsne
  have hlast := hnm (ps.length - 1) (by omega)
  have hidx : a.length - ps.length + (ps.length - 1) + 1 = a.length := by omega
  rw [hidx, List.take_length] at hlast
  exact ⟨ps.get ⟨ps.length - 1, by omega⟩, hlast, List.get_mem ps _ _⟩

theorem upsert_text_off_path (t : Elem) (ps : List String) (v : String) (b : Addr)
    (nm : String) (hb : nameAt t b = some nm) (hnm : nm ∉ ps) :
    textAtNode (upsertText t ps v) b = textAtNode t b := by
  cases hh : (chainHits t ps).head? with
  | some a =>
    have hcm := mem_chainHits.mp (head?_mem hh)
    have hba : b ≠ a := by
      intro hcon
      subst hcon
      obtain ⟨nm₂, hn₂, hmem₂⟩ := chainMatch_last_name hcm
      rw [hb] at hn₂
      injection hn₂ with hn₂
      rw [hn₂] at hnm
      exact hnm hmem₂
    simp only [upsertText, hh]
    exact setText_text_ne t a v b hba
  | none =>
    cases hps : ps with
    | nil => subst hps; simp [upsertText, chainHits_nil]
    | cons p ps' =>
      subst hps
      obtain ⟨qs, hsplit, hdt, hfailr⟩ := @dp_spec t (p :: ps') ([] : Addr)
      have hvroot : (t.get? ([] : Addr)).isSome = true := by cases t; rfl
      have hvD : (t.get? (descendPhase t [] (p :: ps')).1).isSome = true := dt_valid hvroot hdt
      have hcp := cp_main (p :: ps') ([] : Addr) hvroot
      obtain ⟨ac₁, ac₂, ac₃, ac₄, ac₅⟩ :=
        appendChain_spec (descendPhase t [] (p :: ps')).2 t (descendPhase t [] (p :: ps')).1 hvD
      have hvb : (t.get? b).isSome = true := valid_of_nameAt hb
      have h₁ : upsertText t (p :: ps') v =
          setTextAt (appendChain t (descendPhase t [] (p :: ps')).1
              (descendPhase t [] (p :: ps')).2).1
            (appendChain t (descendPhase t [] (p :: ps')).1
              (descendPhase t [] (p :: ps')).2).2 v := by
        simp only [upsertText, hh, hcp]
      rw [h₁]
      have hbne : b ≠ (appendChain t (descendPhase t [] (p :: ps')).1
          (descendPhase t [] (p :: ps')).2).2 := by
        intro hcon
        cases hrs : (descendPhase t [] (p :: ps')).2 with
        | nil =>
          have hq : qs = p :: ps' := by
            rw [hrs] at hsplit
            rw [hsplit, List.append_nil]
          have hfD : (appendChain t (descendPhase t [] (p :: ps')).1
              (descendPhase t [] (p :: ps')).2).2 = (descendPhase t [] (p :: ps')).1 := by
            rw [hrs]
            rfl
          have hlastD := dt_last hdt (by rw [hq]; exact List.cons_ne_nil p ps') p
          rw [← hfD, ← hcon, hb] at hlastD
          injection hlastD with hlastD
          rw [hlastD] at hnm
          refine hnm ?_
          rw [hq] at hlastD ⊢
          exact getLastD_mem (p :: ps') p (List.cons_ne_nil p ps')
        | cons r rs' =>
          have hlen : (descendPhase t [] (p :: ps')).1.length <
              (appendChain t (descendPhase t [] (p :: ps')).1
                (descendPhase t [] (p :: ps')).2).2.length := by
            rw [ac₂, hrs, List.length_cons]
            omega
          have hfinv := appendChain_new_invalid (descendPhase t [] (p :: ps')).2 t
            (descendPhase t [] (p :: ps')).1 hvD _ (pfx_refl _) hlen
          rw [← hcon] at hfinv
          rw [hvb] at hfinv
          cases hfinv
      rw [setText_text_ne _ _ _ _ hbne]
      exact (ac₃ b hvb).2.2

theorem enrich_fb_raw (t : Elem) (cmd : Commande) :
    (enrichContract t cmd).2.fallback_used =
      (match getClassification t cmd with
       | (some c, _, fb) => if c != "" then fb else false
       | (none, _, _) => false) := by
  unfold enrichContract
  rcases hgc : getClassification t cmd with ⟨oc, note, fb⟩
  simp only [hgc]
  rcases oc with _ | c
  · cases cmd.statut with
    | none => rfl
    | some s => by_cases hs : (s != "") = true <;> simp [hs]
  · by_cases hc : (c != "") = true
    · cases cmd.statut with
      | none => simp [hc]
      | some s => by_cases hs : (s != "") = true <;> simp [hc, hs]
    · cases cmd.statut with
      | none => simp [hc]
      | some s => by_cases hs : (s != "") = true <;> simp [hc, hs]

theorem enrich_fallback_eq (t : Elem) (cmd : Commande) :
    (enrichContract t cmd).2.fallback_used =
      (!(classifTruthy cmd) && (getClassificationFromLevel t).2.2) := by
  rw [enrich_fb_raw]
  cases hcl : cmd.classification_interimaire with
  | some c =>
    by_cases hbc : (c != "" && strTrim c != "") = true
    · have hct : classifTruthy cmd = true := by simp [classifTruthy, hcl, hbc]
      have hgc : getClassification t cmd = (some (strTrim c), "depuis JSON", false) := by
        simp [getClassification, hcl, hbc]
      rw [hgc, hct]
      have hbc' := hbc
      rw [Bool.and_eq_true] at hbc'
      obtain ⟨h1, h2⟩ := hbc'
      simp [h2]
    · have hbcf : (c != "" && strTrim c != "") = false := by
        cases hcb2 : (c != "" && strTrim c != "") with
        | false => rfl
        | true => exact absurd hcb2 hbc
      have hct : classifTruthy cmd = false := by simp [classifTruthy, hcl, hbcf]
      have hgc : getClassification t cmd = getClassificationFromLevel t := by
        simp [getClassification, hcl, hbcf]
      rw [hgc, hct]
      rcases gcfl_inv t with ⟨c', heq, hpat, hne⟩ | heq
      · rw [heq]
        simp [hne]
      · rw [heq]
        simp
  | none =>
    have hct : classifTruthy cmd = false := by simp [classifTruthy, hcl]
    have hgc : getClassification t cmd = getClassificationFromLevel t := by
      simp [getClassification, hcl]
    rw [hgc, hct]
    rcases gcfl_inv t with ⟨c', heq, hpat, hne⟩ | heq
    · rw [heq]
      simp [hne]
    · rw [heq]
      simp

theorem applyFallback_conditions (t : Elem) :
    (applyClassificationFallback t).2.isSome = true →
      ((getClassificationFromLevel t).2.2 = true ∧
       ∀ a, (chainHits t coeffPath).head? = some a →
         (strTrim ((textAtNode t a).getD "") == "") = true) := by
  intro h
  rcases gcfl_inv t with ⟨c', heq, hpat, hne⟩ | heq
  · constructor
    · rw [heq]
    · intro a ha
      by_cases hemp : (strTrim ((textAtNode t a).getD "") == "") = true
      · exact hemp
      · exfalso
        have hn : (applyClassificationFallback t).2 = none := by
          simp [applyClassificationFallback, heq, hne, ha, hemp]
        rw [hn] at h
        cases h
  · exfalso
    have hn : (applyClassificationFallback t).2 = none := by
      simp [applyClassificationFallback, heq]
    rw [hn] at h
    cases h

/-!
## Claim theorems
-/

/-- C7: when the matched record's classification is truthy and non-blank after
stripping, the coefficient recorded and written is that (stripped)
classification, the note says it came from the JSON record, and the
position-level fallback never fires. -/
theorem classification_wins (t : Elem) (cmd : Commande) (c : String)
    (hc : cmd.classification_interimaire = some c)
    (h1 : (c != "") = true) (h2 : (strTrim c != "") = true) :
    (enrichContract t cmd).2.classification = some (strTrim c) ∧
    (enrichContract t cmd).2.fallback_used = false ∧
    (enrichContract t cmd).2.note = "depuis JSON" ∧
    (cmd.statut = none → (enrichContract t cmd).1 = upsertText t coeffPath (strTrim c)) := by
  have hgc : getClassification t cmd = (some (strTrim c), "depuis JSON", false) := by
    simp [getClassification, hc, h1, h2]
  unfold enrichContract
  simp only [hgc]
  cases hst : cmd.statut with
  | none => simp [h2]
  | some s => by_cases hs : (s != "") = true <;> simp [h2, hs, hst]

/-- C7 witness: a record with classification `A2` wins over the level text. -/
theorem classification_wins_witness :
    (Commande.mk (some "A2") none).classification_interimaire = some "A2" ∧
    ("A2" != "") = true ∧ (strTrim "A2" != "") = true ∧
    ((enrichContract exTwoStatus (Commande.mk (some "A2") none)).2.classification
        = some (strTrim "A2") ∧
     (enrichContract exTwoStatus (Commande.mk (some "A2") none)).2.fallback_used = false ∧
     (enrichContract exTwoStatus (Commande.mk (some "A2") none)).2.note = "depuis JSON" ∧
     ((Commande.mk (some "A2") none).statut = none →
       (enrichContract exTwoStatus (Commande.mk (some "A2") none)).1
         = upsertText exTwoStatus coeffPath (strTrim "A2"))) :=
  ⟨rfl, by decide, by decide,
   classification_wins exTwoStatus (Commande.mk (some "A2") none) "A2" rfl
     (by decide) (by decide)⟩

/-- C8: `_upsert_text` is idempotent — calling it twice with the same context,
XPath chain and value yields the same tree as calling it once — and it never
creates duplicate same-name siblings: after an upsert, no element has more
children of a given name than the larger of its previous count and one. -/
theorem upsert_idempotent_no_dup (t : Elem) (ps : List String) (v : String) :
    upsertText (upsertText t ps v) ps v = upsertText t ps v ∧
    ∀ b nm, ((kidNames (upsertText t ps v) b).count nm) ≤
      max ((kidNames t b).count nm) 1 :=
  ⟨upsert_idem t ps v, fun b nm => upsert_count t ps v b nm⟩

/-- C1 counterexample: a context with two status-code nodes — after enrichment
with resolved code `OP`, only the first (document-order) node holds `OP`; the
second keeps its previous text `X2`, contradicting "assigns … every existing
status-code node". -/
theorem status_first_only_counterexample :
    chainHits exTwoStatus statusPath = [[0, 0, 0], [0, 1, 0]] ∧
    statutCode "OP" = "OP" ∧
    textAtNode (enrichContract exTwoStatus (Commande.mk (some "A2") (some "OP"))).1 [0, 0, 0]
      = some "OP" ∧
    textAtNode (enrichContract exTwoStatus (Commande.mk (some "A2") (some "OP"))).1 [0, 1, 0]
      = some "X2" ∧
    ("X2" : String) ≠ "OP" :=
  ⟨rfl, rfl, rfl, rfl, by decide⟩

/-- C1 amended: `_upsert_text` assigns the value to the first document-order
hit of the XPath chain only (`nodes[0].text = value`); every other matching
node keeps its previous text; when no node matches, the hierarchy is created. -/
theorem status_first_only_amended (t : Elem) (ps : List String) (v : String) (a : Addr)
    (h : (chainHits t ps).head? = some a) :
    upsertText t ps v = setTextAt t a v ∧
    textAtNode (upsertText t ps v) a = some v ∧
    ∀ b, chainMatch t ps b → b ≠ a → textAtNode (upsertText t ps v) b = textAtNode t b := by
  have heq : upsertText t ps v = setTextAt t a v := by simp only [upsertText, h]
  refine ⟨heq, ?_, ?_⟩
  · rw [heq]
    exact setText_text_self t a v (mem_chainHits.mp (head?_mem h)).1
  · intro b hb hne
    rw [heq]
    exact setText_text_ne t a v b hne

/-- C1 amended, witness at the two-status fixture. -/
theorem status_first_only_amended_witness :
    (chainHits exTwoStatus statusPath).head? = some [0, 0, 0] ∧
    (upsertText exTwoStatus statusPath "OP" = setTextAt exTwoStatus [0, 0, 0] "OP" ∧
     textAtNode (upsertText exTwoStatus statusPath "OP") [0, 0, 0] = some "OP" ∧
     ∀ b, chainMatch exTwoStatus statusPath b → b ≠ [0, 0, 0] →
       textAtNode (upsertText exTwoStatus statusPath "OP") b = textAtNode exTwoStatus b) :=
  ⟨rfl, status_first_only_amended exTwoStatus statusPath "OP" [0, 0, 0] rfl⟩

/-- C2 counterexample: for a matched record with status `OP - Opérateur` the
enricher writes only the code `OP`; the existing `StatusDescription` node
keeps its old text and the label `Opérateur` appears nowhere in the output. -/
theorem status_description_counterexample :
    statutCode "OP - Opérateur" = "OP" ∧
    nameAt exDescr [0, 1, 1] = some "StatusDescription" ∧
    textAtNode (enrichContract exDescr
        (Commande.mk (some "A2") (some "OP - Opérateur"))).1 [0, 1, 1] = some "OLD" ∧
    ((enrichContract exDescr (Commande.mk (some "A2") (some "OP - Opérateur"))).1.addrs.all
      (fun a => decide (textAtNode (enrichContract exDescr
        (Commande.mk (some "A2") (some "OP - Opérateur"))).1 a ≠ some "Opérateur"))) = true :=
  ⟨rfl, rfl, rfl, by decide⟩

/-- C2 amended: `_enrich_contract` writes only along the coefficient and
status-code chains; every node whose name is on neither chain keeps its text —
no status-description value is ever assigned. -/
theorem status_description_amended (t : Elem) (ps : List String) (v : String) (b : Addr)
    (nm : String) (hb : nameAt t b = some nm) (hnm : nm ∉ ps) :
    textAtNode (upsertText t ps v) b = textAtNode t b :=
  upsert_text_off_path t ps v b nm hb hnm

/-- C2 amended, witness: the `StatusDescription` node survives a status-code
upsert untouched. -/
theorem status_description_amended_witness :
    nameAt exDescr [0, 1, 1] = some "StatusDescription" ∧
    "StatusDescription" ∉ statusPath ∧
    textAtNode (upsertText exDescr statusPath "OP") [0, 1, 1] = textAtNode exDescr [0, 1, 1] :=
  ⟨rfl, by decide,
   status_description_amended exDescr statusPath "OP" [0, 1, 1] "StatusDescription" rfl
     (by decide)⟩

/-- C3 counterexample: with no declared prolog encoding the output is
serialized in `iso-8859-1`, not UTF-8 (`tree.docinfo.encoding or 'iso-8859-1'`,
line 212). -/
theorem default_encoding_counterexample :
    (enrichXml exEmpty none []).encodingUsed = "iso-8859-1" ∧
    (enrichXml exEmpty none []).encodingUsed ≠ "UTF-8" :=
  ⟨rfl, by decide⟩

/-- C3 amended: a non-empty declared encoding is preserved for the output;
a missing (or falsy/empty) declaration falls back to `iso-8859-1`. -/
theorem default_encoding_amended (doc : Elem) (table : List (String × Commande)) (s : String) :
    (enrichXml doc (some s) table).encodingUsed = (if s == "" then "iso-8859-1" else s) ∧
    (enrichXml doc none table).encodingUsed = "iso-8859-1" :=
  ⟨enrichXml_encodingUsed doc (some s) table, enrichXml_encodingUsed doc none table⟩

/-- C4 counterexample: a document with zero detected contracts terminates
with `success = False` — it is surfaced as a failure, not as a non-error
result. -/
theorem zero_contracts_counterexample :
    locate exEmpty = [] ∧
    (enrichXml exEmpty none []).success = false ∧
    (enrichXml exEmpty none []).message = "Aucun contrat détecté dans le XML" ∧
    (enrichXml exEmpty none []).written = false ∧
    (enrichXml exEmpty none []).stats.total = 0 :=
  ⟨rfl, rfl, rfl, rfl, rfl⟩

/-- C4 amended: when the locator finds zero contracts the run terminates
early with a failure result (`success = False`), the zero-contract message,
no file written and zeroed statistics. -/
theorem zero_contracts_amended (doc : Elem) (e : Option String)
    (table : List (String × Commande)) (h : locate doc = []) :
    (enrichXml doc e table).success = false ∧
    (enrichXml doc e table).written = false ∧
    (enrichXml doc e table).message = "Aucun contrat détecté dans le XML" ∧
    (enrichXml doc e table).stats.total = 0 := by
  have hemp : (locate doc).isEmpty = true := by rw [h]; rfl
  simp only [enrichXml]
  rw [if_pos hemp]
  exact ⟨rfl, rfl, rfl, rfl⟩

/-- C4 amended, witness at the anchor-free fixture. -/
theorem zero_contracts_amended_witness :
    locate exEmpty = [] ∧
    ((enrichXml exEmpty none []).success = false ∧
     (enrichXml exEmpty none []).written = false ∧
     (enrichXml exEmpty none []).message = "Aucun contrat détecté dans le XML" ∧
     (enrichXml exEmpty none []).stats.total = 0) :=
  ⟨rfl, zero_contracts_amended exEmpty none [] rfl⟩

/-- C5 counterexample: lookup is not normalization-invariant — with the key
`RT001400` in the table, the exact text resolves, but a lower-cased variant
and a variant with an internal line break do not. -/
theorem key_normalization_counterexample :
    (resolveRecord [("RT001400", Commande.mk (some "A2") (some "OP"))] "RT001400").isSome
      = true ∧
    (resolveRecord [("RT001400", Commande.mk (some "A2") (some "OP"))] "  rt001400").isSome
      = false ∧
    (resolveRecord [("RT001400", Commande.mk (some "A2") (some "OP"))] "RT\n001400").isSome
      = false :=
  ⟨rfl, rfl, rfl⟩

/-- C5 amended: key resolution strips leading and trailing whitespace and then
searches the stripped text for a case-sensitive `RT`/`CR`/`CD` + six-digit
pattern; it is invariant under surrounding whitespace only — case changes or
whitespace inside the identifier are not normalized away. -/
theorem key_normalization_amended (table : List (String × Commande)) (wl wr : List Char)
    (s : String) (hwl : ∀ c ∈ wl, isWsChar c) (hwr : ∀ c ∈ wr, isWsChar c) :
    resolveRecord table (String.mk (wl ++ (s.toList ++ wr))) = resolveRecord table s :=
  resolveRecord_pad table wl wr s hwl hwr

/-- C5 amended, witness: padding `RT001400` with surrounding whitespace does
not change the lookup result. -/
theorem key_normalization_amended_witness :
    (∀ c ∈ [' ', ' '], isWsChar c) ∧ (∀ c ∈ ['\n'], isWsChar c) ∧
    resolveRecord [("RT001400", Commande.mk (some "A2") (some "OP"))]
        (String.mk ([' ', ' '] ++ (("RT001400" : String).toList ++ ['\n'])))
      = resolveRecord [("RT001400", Commande.mk (some "A2") (some "OP"))] "RT001400" :=
  ⟨by decide, by decide,
   key_normalization_amended [("RT001400", Commande.mk (some "A2") (some "OP"))]
     [' ', ' '] ['\n'] "RT001400" (by decide) (by decide)⟩

/-- C6 counterexample: a contract that matches a record (so "no record
matched" is false) with a non-empty coefficient `Z9` still has the level text
`B3` copied over its coefficient, with the fallback counter incremented —
the matched-record path never checks that the coefficient is empty. -/
theorem fallback_conditions_counterexample :
    (enrichXml exFallback none [("RT001400", Commande.mk none none)]).stats.enrichis = 1 ∧
    textAtNode exFallback [0, 1, 0] = some "Z9" ∧
    (enrichXml exFallback none [("RT001400", Commande.mk none none)]).stats.fallback_count
      = 1 ∧
    textAtNode (enrichXml exFallback none
        [("RT001400", Commande.mk none none)]).output [0, 1, 0] = some "B3" :=
  ⟨rfl, rfl, rfl, rfl⟩

/-- C6 amended: the position-level fallback fires on the matched-record path
whenever the record's classification is falsy and the level text matches the
classification pattern — regardless of the current coefficient; only the
unmatched-record path (`_apply_classification_fallback`) additionally requires
the current coefficient to be absent or blank. -/
theorem fallback_conditions_amended :
    (∀ t cmd, (enrichContract t cmd).2.fallback_used =
        (!(classifTruthy cmd) && (getClassificationFromLevel t).2.2)) ∧
    (∀ t, (applyClassificationFallback t).2.isSome = true →
        ((getClassificationFromLevel t).2.2 = true ∧
         ∀ a, (chainHits t coeffPath).head? = some a →
           (strTrim ((textAtNode t a).getD "") == "") = true)) :=
  ⟨enrich_fallback_eq, applyFallback_conditions⟩

/-- C9 counterexample: the outer context of `exNested` owns a reference
anchor whose order text `GARBAGE` matches no accepted pattern, yet the
context is not discarded — it is returned with the order id `RT111111`
read from its first (nested) `ReferenceInformation` descendant. -/
theorem locator_discard_counterexample :
    (locate exNested).map (fun i => i.ctx) = [[], [0, 0]] ∧
    (locate exNested).map (fun i => i.order_id) = ["RT111111", "RT111111"] ∧
    nameAt exNested [1] = some "ReferenceInformation" ∧
    textAtNode exNested [1, 0, 0] = some "GARBAGE" ∧
    extractOrderIdFromText (strTrim "GARBAGE") = none :=
  ⟨rfl, rfl, rfl, rfl, rfl⟩

/-- C9 amended: extraction reads only the first document-order
`ReferenceInformation` descendant of each candidate context, so a context
with an unmatchable anchor can still be kept (with an id found deeper);
what does hold is that every order id in the returned sequence matches one
of the accepted `RT`/`CR`/`CD` + six-digit patterns. -/
theorem locator_discard_amended (doc : Elem) (info : ContractInfo)
    (h : info ∈ locate doc) : acceptedOrderId info.order_id = true :=
  locate_accepted h

/-- C9 amended, witness: the contract located in the fallback fixture carries
an accepted order id. -/
theorem locator_discard_amended_witness :
    (ContractInfo.mk "RT001400" "N/A" [0]) ∈ locate exFallback ∧
    acceptedOrderId (ContractInfo.mk "RT001400" "N/A" [0]).order_id = true :=
  ⟨by rw [show locate exFallback = [ContractInfo.mk "RT001400" "N/A" [0]] from rfl]
      exact List.mem_cons_self _ _,
   locator_discard_amended exFallback (ContractInfo.mk "RT001400" "N/A" [0])
     (by rw [show locate exFallback = [ContractInfo.mk "RT001400" "N/A" [0]] from rfl]
         exact List.mem_cons_self _ _)⟩

/-- C10: `enrich_xml` writes the output file iff at least one contract
matched an order record or the classification fallback fired; `success`
always coincides with `written` (so the no-modification case is a failure
result), and the statistics always carry one detail row per located
contract with the full total. -/
theorem write_gate (doc : Elem) (e : Option String) (table : List (String × Commande)) :
    ((enrichXml doc e table).written = true ↔
      (0 < (locate doc).countP (fun i => (lookupTable table i.order_id).isSome) ∨
       0 < (enrichXml doc e table).stats.fallback_count)) ∧
    (enrichXml doc e table).success = (enrichXml doc e table).written ∧
    (enrichXml doc e table).stats.total = (locate doc).length ∧
    (enrichXml doc e table).stats.details.length = (locate doc).length := by
  by_cases hemp : (locate doc).isEmpty = true
  · have hnil : locate doc = [] := List.isEmpty_iff.mp hemp
    simp only [enrichXml]
    rw [if_pos hemp]
    refine ⟨?_, rfl, ?_, ?_⟩
    · constructor
      · intro hw
        cases hw
      · rintro (hcp | hfb)
        · rw [hnil, List.countP_nil] at hcp
          exact absurd hcp (Nat.lt_irrefl 0)
        · exact absurd hfb (Nat.lt_irrefl 0)
    · rw [hnil]
      rfl
    · rw [hnil]
      rfl
  · simp only [enrichXml]
    rw [if_neg hemp]
    obtain ⟨hE, hT, hD⟩ := enrich_fold_stats table (locate doc)
      (doc, { total := (locate doc).length, enrichis := 0, non_trouves := 0,
              fallback_count := 0, details := [] })
    by_cases hc : (decide ((List.foldl (foldStep table)
          (doc, { total := (locate doc).length, enrichis := 0, non_trouves := 0,
                  fallback_count := 0, details := [] }) (locate doc)).2.enrichis > 0)
        || decide ((List.foldl (foldStep table)
          (doc, { total := (locate doc).length, enrichis := 0, non_trouves := 0,
                  fallback_count := 0, details := [] }) (locate doc)).2.fallback_count > 0))
        = true
    · rw [if_pos hc]
      refine ⟨?_, rfl, hT, hD.trans (by simp)⟩
      constructor
      · intro hw
        simp only [Bool.or_eq_true, decide_eq_true_eq] at hc
        rcases hc with h | h
        · left
          rw [hE] at h
          simpa using h
        · right
          exact h
      · intro hdis
        rfl
    · rw [if_neg hc]
      refine ⟨?_, rfl, hT, hD.trans (by simp)⟩
      constructor
      · intro hw
        cases hw
      · rintro (h | h)
        · exfalso
          apply hc
          rw [Bool.or_eq_true]
          left
          refine decide_eq_true ?_
          rw [hE]
          omega
        · exfalso
          apply hc
          rw [Bool.or_eq_true]
          right
          exact decide_eq_true h
